import Mathlib

/-!
Verification of the website-graph crawler in
`.github/workflows/generate-graph/index.py`.

The crawler works on Python `str` values; we embed strings as `List Char`
(`Str`).  The URL machinery (`urllib.parse.urlsplit` / `urlparse` /
`urlunparse` / `urljoin`) is translated from CPython 3.11 (the version the
script requires), the glob matcher from `fnmatch`, and the crawler itself
(`WebsiteGraphCrawler._should_ignore_url`, `_normalize_url`,
`_extract_links`, `crawl`, `save_csv`, `save_json`) from the script.

Modelling notes:
* HTML fetching and parsing (`_fetch_page`, `_extract_title`, BeautifulSoup
  link extraction with the post-footer filter, and the robots gate) are
  abstracted into a `Site` function mapping a URL to `none` (fetch failure,
  non-HTML content, or robots denial) or to a `Page` carrying the extracted
  title and the href values of the non-post-footer anchor tags, in document
  order.  Python `set` iteration order is unspecified; we fix first-insertion
  order for the link set built by `_extract_links`.
* CPython's `urlsplit` raises `ValueError` for netlocs with malformed
  bracketed hosts; the crawler's `try`/`except` turns that into `None`
  (`_normalize_url`) or `False` (`_should_ignore_url`).  The embedding's
  parser is total and does not model that error path; no theorem below
  depends on bracketed-host inputs.
* `fnmatch.translate`'s handling of degenerate character-class ranges
  (for instance `[z-a]`, which CPython merges chunk-wise) is approximated by
  a range test that simply never matches when reversed; character classes
  are not exercised by any concrete input below.
* `time.sleep` (rate limiting) and debug printing have no effect on the
  graph and are omitted.
-/

/-- Python strings, embedded as lists of characters. -/
abbrev Str := List Char

/-- Convert a Lean string literal to the embedding. -/
def str (s : String) : Str := s.data

/-- Characters removed anywhere in a URL by CPython's `urlsplit`
(`_UNSAFE_URL_BYTES_TO_REMOVE` = tab, CR, LF). -/
def isUnsafeUrlChar (c : Char) : Bool := c == '\t' || c == '\r' || c == '\n'

/-- Remove tab/CR/LF everywhere (CPython `url.replace(b, "")`). -/
def removeUnsafe (l : Str) : Str := l.filter (fun c => !(isUnsafeUrlChar c))

/-- WHATWG C0-control-or-space class used by `urlsplit`'s leading strip. -/
def isC0OrSpace (c : Char) : Bool := c.toNat ≤ 32

/-- CPython `url.lstrip(_WHATWG_C0_CONTROL_OR_SPACE)`. -/
def lstripC0 (l : Str) : Str := l.dropWhile isC0OrSpace

/-- CPython `scheme.strip(_WHATWG_C0_CONTROL_OR_SPACE)` (both sides), then
tab/CR/LF removal, applied to the default-scheme argument of `urlsplit`. -/
def cleanSchemeArg (l : Str) : Str :=
  removeUnsafe (((l.dropWhile isC0OrSpace).reverse.dropWhile isC0OrSpace).reverse)

/-- Python `s.rstrip(c)` for a single character: drop every trailing `c`. -/
def rstripChar (c : Char) (l : Str) : Str :=
  (l.reverse.dropWhile (fun x => x == c)).reverse

/-- Python `s.endswith(c)` for a single character. -/
def endsWithChar (c : Char) (l : Str) : Bool :=
  match l.reverse with
  | [] => false
  | x :: _ => x == c

/-- Split at the first occurrence of `c`: returns the part before it and,
if found, the part after it (Python `s.split(c, 1)`). -/
def splitFirst (c : Char) : Str → Str × Option Str
  | [] => ([], none)
  | x :: xs =>
    if x = c then ([], some xs)
    else
      let r := splitFirst c xs
      (x :: r.1, r.2)

/-- Python `if c in s: a, b = s.split(c, 1)`: when `c` is absent the string
is left whole and the second component is empty. -/
def splitOnceOr (c : Char) (l : Str) : Str × Str :=
  match splitFirst c l with
  | (a, some b) => (a, b)
  | (_, none) => (l, [])

/-- Characters permitted in a URL scheme (`urllib.parse.scheme_chars`). -/
def isSchemeChar (c : Char) : Bool :=
  ('a' ≤ c && c ≤ 'z') || ('A' ≤ c && c ≤ 'Z') || ('0' ≤ c && c ≤ '9') ||
    c == '+' || c == '-' || c == '.'

/-- ASCII letter test (`url[0].isascii() and url[0].isalpha()`). -/
def isAsciiAlpha (c : Char) : Bool :=
  ('a' ≤ c && c ≤ 'z') || ('A' ≤ c && c ≤ 'Z')

/-- Lowercase a string; schemes are all-ASCII when this is applied. -/
def lowerStr (l : Str) : Str := l.map Char.toLower

/-- The scheme-splitting step of `urlsplit`: if the text before the first
colon is nonempty, starts with an ASCII letter and consists of scheme
characters, it is removed and lowercased; otherwise nothing is split. -/
def splitScheme (l : Str) : Str × Str :=
  match splitFirst ':' l with
  | (before, some after) =>
    match before with
    | [] => ([], l)
    | b0 :: _ =>
      if isAsciiAlpha b0 && before.all isSchemeChar then (lowerStr before, after)
      else ([], l)
  | (_, none) => ([], l)

/-- Characters ending the netloc in `_splitnetloc` (`'/?#'`). -/
def isNetlocEnd (c : Char) : Bool := c == '/' || c == '?' || c == '#'

/-- The netloc-splitting step of `urlsplit`: after a leading `//`, the
netloc extends up to the first `/`, `?` or `#`. -/
def splitNetloc : Str → Str × Str
  | '/' :: '/' :: rest =>
    (rest.takeWhile (fun c => !(isNetlocEnd c)), rest.dropWhile (fun c => !(isNetlocEnd c)))
  | l => ([], l)

/-- Result of `urllib.parse.urlsplit`. -/
structure UrlSplitParts where
  scheme : Str
  netloc : Str
  path : Str
  query : Str
  fragment : Str
deriving DecidableEq, Repr

/-- `urllib.parse.urlsplit(url, scheme=d, allow_fragments=True)`,
CPython 3.11 (bracketed-host validation omitted, see header). -/
def urlsplit (url d : Str) : UrlSplitParts :=
  let u1 := removeUnsafe (lstripC0 url)
  let d1 := cleanSchemeArg d
  let sr := splitScheme u1
  let sch := if sr.1 = [] then d1 else sr.1
  let nr := splitNetloc sr.2
  let fr := splitOnceOr '#' nr.2
  let qr := splitOnceOr '?' fr.1
  ⟨sch, nr.1, qr.1, qr.2, fr.2⟩

/-- Everything after the last `/` (the whole string if there is none). -/
def afterLastSlash (l : Str) : Str :=
  (l.reverse.takeWhile (fun c => c ≠ '/')).reverse

/-- Everything up to and including the last `/` (empty if there is none). -/
def upToLastSlash (l : Str) : Str :=
  (l.reverse.dropWhile (fun c => c ≠ '/')).reverse

/-- `urllib.parse._splitparams`: split parameters after the first `;`
occurring in the last path segment. -/
def splitParams (l : Str) : Str × Str :=
  if '/' ∈ l then
    match splitFirst ';' (afterLastSlash l) with
    | (a, some b) => (upToLastSlash l ++ a, b)
    | (_, none) => (l, [])
  else
    match splitFirst ';' l with
    | (a, some b) => (a, b)
    | (_, none) => (l, [])

/-- `urllib.parse.uses_relative`. -/
def usesRelative : List Str :=
  [str "", str "ftp", str "http", str "gopher", str "nntp", str "imap",
   str "wais", str "file", str "https", str "shttp", str "mms",
   str "prospero", str "rtsp", str "rtsps", str "rtspu", str "sftp",
   str "svn", str "svn+ssh", str "ws", str "wss"]

/-- `urllib.parse.uses_netloc`. -/
def usesNetloc : List Str :=
  [str "", str "ftp", str "http", str "gopher", str "nntp", str "telnet",
   str "imap", str "wais", str "file", str "mms", str "https", str "shttp",
   str "snews", str "prospero", str "rtsp", str "rtsps", str "rtspu",
   str "rsync", str "svn", str "svn+ssh", str "sftp", str "nfs",
   str "git", str "git+ssh", str "ws", str "wss"]

/-- `urllib.parse.uses_params`. -/
def usesParams : List Str :=
  [str "", str "ftp", str "hdl", str "prospero", str "http", str "imap",
   str "https", str "shttp", str "rtsp", str "rtsps", str "rtspu",
   str "sip", str "sips", str "mms", str "sftp", str "tel"]

/-- Result of `urllib.parse.urlparse`. -/
structure UrlParts where
  scheme : Str
  netloc : Str
  path : Str
  params : Str
  query : Str
  fragment : Str
deriving DecidableEq, Repr

/-- `urllib.parse.urlparse(url, scheme=d, allow_fragments=True)`: splits
parameters from the path only when the scheme uses them and a `;` is
present. -/
def urlparse (url d : Str) : UrlParts :=
  let s := urlsplit url d
  if s.scheme ∈ usesParams ∧ ';' ∈ s.path then
    let pr := splitParams s.path
    ⟨s.scheme, s.netloc, pr.1, pr.2, s.query, s.fragment⟩
  else
    ⟨s.scheme, s.netloc, s.path, [], s.query, s.fragment⟩

/-- A scheme string as recognised by `urlsplit`: nonempty, leading ASCII
letter, scheme characters only, already lowercased. -/
def goodScheme : Str → Bool
  | [] => false
  | c :: rest => isAsciiAlpha c && (c :: rest).all isSchemeChar &&
      (lowerStr (c :: rest) == c :: rest)

/-- Invariants of a parse result with a recognised scheme and a nonempty
netloc, as produced by `urlparse`; they make `urlunparse` a left inverse of
`urlparse` on the serialised URL. -/
def CleanParts (q : UrlParts) : Prop :=
  goodScheme q.scheme = true ∧
  q.netloc ≠ [] ∧
  (∀ c ∈ q.netloc, isNetlocEnd c = false ∧ isUnsafeUrlChar c = false) ∧
  (q.path = [] ∨ q.path.take 1 = ['/']) ∧
  (∀ c ∈ q.path, c ≠ '?' ∧ c ≠ '#' ∧ isUnsafeUrlChar c = false) ∧
  (q.params ≠ [] → q.scheme ∈ usesParams ∧ q.path ≠ []) ∧
  (';' ∈ afterLastSlash q.path → q.scheme ∉ usesParams) ∧
  (∀ c ∈ q.params, c ≠ '/' ∧ c ≠ '?' ∧ c ≠ '#' ∧ isUnsafeUrlChar c = false) ∧
  (∀ c ∈ q.query, c ≠ '#' ∧ isUnsafeUrlChar c = false) ∧
  q.fragment = []

/-- `urllib.parse.urlunsplit`, CPython 3.11. -/
def urlunsplit (scheme netloc path query fragment : Str) : Str :=
  let u1 :=
    if netloc ≠ [] ∨ (scheme ≠ [] ∧ scheme ∈ usesNetloc ∧ path.take 2 ≠ ['/', '/']) then
      '/' :: '/' :: (netloc ++ (if path ≠ [] ∧ path.take 1 ≠ ['/'] then '/' :: path else path))
    else path
  let u2 := if scheme ≠ [] then scheme ++ ':' :: u1 else u1
  let u3 := if query ≠ [] then u2 ++ '?' :: query else u2
  if fragment ≠ [] then u3 ++ '#' :: fragment else u3

/-- `urllib.parse.urlunparse`. -/
def urlunparse (q : UrlParts) : Str :=
  urlunsplit q.scheme q.netloc
    (if q.params ≠ [] then q.path ++ ';' :: q.params else q.path) q.query q.fragment

/-- Python `s.split('/')` (never returns an empty list). -/
def splitSlash : Str → List Str
  | [] => [[]]
  | c :: rest =>
    if c = '/' then [] :: splitSlash rest
    else
      match splitSlash rest with
      | [] => [[c]]
      | s :: ss => (c :: s) :: ss

/-- Python `'/'.join(l)`. -/
def joinSlash : List Str → Str
  | [] => []
  | [x] => x
  | x :: xs => x ++ '/' :: joinSlash xs

/-- `segments[1:-1] = filter(None, segments[1:-1])`: drop empty segments
except the first and last. -/
def filterMiddleAux : List Str → List Str
  | [] => []
  | [x] => [x]
  | x :: xs => if x = [] then filterMiddleAux xs else x :: filterMiddleAux xs

/-- Keep the first element, filter empties from the middle, keep the last. -/
def filterMiddle : List Str → List Str
  | [] => []
  | [x] => [x]
  | x :: xs => x :: filterMiddleAux xs

/-- The `..`/`.` resolution loop of `urljoin` (`pop` on an empty list is a
caught `IndexError`, hence `dropLast` of `[]` is `[]`). -/
def joinSegments (segments : List Str) : List Str :=
  segments.foldl
    (fun acc seg =>
      if seg = str ".." then acc.dropLast
      else if seg = str "." then acc
      else acc ++ [seg]) []

/-- `urllib.parse.urljoin`, CPython 3.11. -/
def urljoin (base url : Str) : Str :=
  if base = [] then url
  else if url = [] then base
  else
    let b := urlparse base []
    let u := urlparse url b.scheme
    if u.scheme ≠ b.scheme ∨ ¬ (u.scheme ∈ usesRelative) then url
    else if u.scheme ∈ usesNetloc ∧ u.netloc ≠ [] then
      urlunparse ⟨u.scheme, u.netloc, u.path, u.params, u.query, u.fragment⟩
    else
      let netloc := if u.scheme ∈ usesNetloc then b.netloc else u.netloc
      if u.path = [] ∧ u.params = [] then
        urlunparse ⟨u.scheme, netloc, b.path, b.params,
          (if u.query = [] then b.query else u.query), u.fragment⟩
      else
        let baseParts0 := splitSlash b.path
        let baseParts := if baseParts0.getLast? = some [] then baseParts0 else baseParts0.dropLast
        let segments :=
          if u.path.take 1 = ['/'] then splitSlash u.path
          else filterMiddle (baseParts ++ splitSlash u.path)
        let resolved0 := joinSegments segments
        let resolved :=
          if segments.getLast? = some (str ".") ∨ segments.getLast? = some (str "..") then
            resolved0 ++ [[]]
          else resolved0
        let jp := joinSlash resolved
        urlunparse ⟨u.scheme, netloc, (if jp = [] then ['/'] else jp), u.params, u.query, u.fragment⟩

/-- Scan to the first `]`, returning the text before and after it. -/
def scanClose : Str → Option (Str × Str)
  | [] => none
  | c :: rest =>
    if c = ']' then some ([], rest)
    else
      match scanClose rest with
      | some (a, b) => some (c :: a, b)
      | none => none

/-- Class-body extraction after an optional `!`: a `]` in the very first
position is a literal member (`fnmatch.translate` skips it before searching
for the closing bracket). -/
def splitClassCore (l : Str) : Option (Str × Str) :=
  match l with
  | ']' :: rest =>
    match scanClose rest with
    | some (a, b) => some (']' :: a, b)
    | none => none
  | rest => scanClose rest

/-- Parse a `fnmatch` character class occurring after `[`: an optional `!`
negation, then the class body; an unterminated class yields `none` (the `[`
is then matched literally, as in `fnmatch.translate`). -/
def splitClass (l : Str) : Option (Bool × Str × Str) :=
  match l with
  | '!' :: rest => (splitClassCore rest).map (fun p => (true, p.1, p.2))
  | _ => (splitClassCore l).map (fun p => (false, p.1, p.2))

/-- Membership of a character in a parsed class body: `a-b` denotes a
code-point range (a reversed range matches nothing), other characters are
literal; a trailing `-` is literal. -/
def classMember : Str → Char → Bool
  | [], _ => false
  | a :: '-' :: b :: rest, c =>
    (decide (a ≤ c) && decide (c ≤ b)) || classMember rest c
  | a :: rest, c => a == c || classMember rest c

/-- Fuel-driven core of the glob matcher underlying `fnmatch.fnmatch`
(patterns are translated to regular expressions in CPython; this is the
direct recursive equivalent): `*` matches any sequence including none, `?`
any single character, `[...]` a character class, anything else itself;
matching is anchored at both ends.  Every recursive call strictly decreases
`p.length + s.length` (for the class case by `splitClass_length`), so the
fuel `p.length + s.length + 1` supplied by `globMatch` never runs out; it
only serves to make the recursion structural, so that the function reduces
inside the kernel. -/
def globMatchF : Nat → Str → Str → Bool
  | 0, _, _ => false
  | fuel + 1, p, s =>
    match p, s with
    | [], [] => true
    | [], _ :: _ => false
    | '*' :: ps, s =>
      globMatchF fuel ps s ||
        (match s with
         | [] => false
         | _ :: s2 => globMatchF fuel ('*' :: ps) s2)
    | '?' :: ps, s =>
      (match s with
       | [] => false
       | _ :: s2 => globMatchF fuel ps s2)
    | '[' :: ps, s =>
      (match splitClass ps with
       | some (neg, content, rest) =>
         (match s with
          | [] => false
          | c :: s2 =>
            (if neg then !(classMember content c) else classMember content c) &&
              globMatchF fuel rest s2)
       | none =>
         (match s with
          | [] => false
          | c :: s2 => ('[' == c) && globMatchF fuel ps s2))
    | p0 :: ps, s =>
      (match s with
       | [] => false
       | c :: s2 => (p0 == c) && globMatchF fuel ps s2)

/-- The glob matcher, run with always-sufficient fuel. -/
def globMatch (p s : Str) : Bool := globMatchF (p.length + s.length + 1) p s

/-- `fnmatch.fnmatch(name, pattern)` on POSIX (`normcase` is the
identity). -/
def fnmatchB (name pat : Str) : Bool := globMatch pat name

/-- Python `str.strip()` whitespace class (ASCII part). -/
def isSpaceChar (c : Char) : Bool :=
  c == ' ' || c == '\t' || c == '\n' || c == '\r' || c == '\x0b' || c == '\x0c'

/-- Python `s.strip()` (both ends). -/
def stripWs (l : Str) : Str :=
  ((l.dropWhile isSpaceChar).reverse.dropWhile isSpaceChar).reverse

/-- The body of the per-pattern loop of
`WebsiteGraphCrawler._should_ignore_url`: `path` is the parsed path made to
start with `/`, `pathNorm` its trailing-slash-normalized form. -/
def matchesIgnorePattern (path pathNorm pat0 : Str) : Bool :=
  let pat1 := stripWs pat0
  if pat1 = [] then false
  else
    let pat := if pat1.take 1 = ['/'] then pat1 else '/' :: pat1
    let star :=
      if endsWithChar '*' pat then
        let pref := rstripChar '/' (rstripChar '*' pat)
        pathNorm == pref || List.isPrefixOf (pref ++ ['/']) pathNorm
      else false
    let patNorm := if pat ≠ ['/'] then rstripChar '/' pat else pat
    star || fnmatchB path pat || fnmatchB pathNorm pat ||
      pathNorm == patNorm || path == pat

/-- `WebsiteGraphCrawler._should_ignore_url` (the catch-all exception
handler is unreachable in the embedding, see header). -/
def should_ignore_url (ignorePaths : List Str) (url : Str) : Bool :=
  if ignorePaths = [] then false
  else
    let parsed := urlparse url []
    let path := if parsed.path.take 1 = ['/'] then parsed.path else '/' :: parsed.path
    let pathNorm := if path ≠ ['/'] then rstripChar '/' path else path
    ignorePaths.any (fun pat => matchesIgnorePattern path pathNorm pat)

/-- Static configuration of a `WebsiteGraphCrawler` (the fields that affect
the graph; `respect_robots`, `delay`, `timeout` and `debug` are absorbed by
the `Site` abstraction). -/
structure CrawlerConfig where
  start_url : Str
  max_pages : Option Nat
  max_depth : Nat
  ignore_paths : List Str

/-- `self.parsed_start = urllib.parse.urlparse(start_url)`. -/
def parsedStart (cfg : CrawlerConfig) : UrlParts := urlparse cfg.start_url []

/-- `self.base_domain = f"{scheme}://{netloc}"`. -/
def baseDomain (cfg : CrawlerConfig) : Str :=
  (parsedStart cfg).scheme ++ str "://" ++ (parsedStart cfg).netloc

/-- `WebsiteGraphCrawler._normalize_url`. -/
def normalize_url (cfg : CrawlerConfig) (url base_url : Str) : Option Str :=
  let parsed := urlparse (urljoin base_url url) []
  let normalized := urlunparse ⟨parsed.scheme, parsed.netloc, parsed.path,
    parsed.params, parsed.query, []⟩
  if parsed.netloc ≠ (parsedStart cfg).netloc then none
  else if should_ignore_url cfg.ignore_paths normalized then none
  else if endsWithChar '/' normalized ∧ normalized ≠ baseDomain cfg ++ ['/'] then
    some (rstripChar '/' normalized)
  else some normalized

/-- The side condition under which `_normalize_url`'s trailing-slash strip
is harmless: either the strip does not fire, or the URL has no query and no
parameters and the stripped path neither vanishes nor ends in a segment
containing `;`. -/
def stripSafe (cfg : CrawlerConfig) (url base_url : Str) : Bool :=
  let p := urlparse (urljoin base_url url) []
  let n0 := urlunparse ⟨p.scheme, p.netloc, p.path, p.params, p.query, []⟩
  (!(endsWithChar '/' n0 && n0 != baseDomain cfg ++ ['/'])) ||
  (p.query == [] && p.params == [] && rstripChar '/' p.path != [] &&
    decide (';' ∉ afterLastSlash (rstripChar '/' p.path)))

/-- The part of a netloc after the last `@` (`netloc.rpartition('@')[2]`). -/
def afterLastAt (l : Str) : Str :=
  if '@' ∈ l then (l.reverse.takeWhile (fun c => c ≠ '@')).reverse else l

/-- The `hostname` property of a parse result: strip userinfo, take the
bracketed host or the part before `:`, lowercase up to a `%` zone marker. -/
def hostOf (netloc : Str) : Str :=
  let hi := afterLastAt netloc
  let h :=
    if '[' ∈ hi then ((hi.dropWhile (fun c => c ≠ '[')).drop 1).takeWhile (fun c => c ≠ ']')
    else hi.takeWhile (fun c => c ≠ ':')
  match splitFirst '%' h with
  | (a, some z) => lowerStr a ++ '%' :: z
  | (a, none) => lowerStr a

/-- Node attributes stored in the graph.  `depth = none` / `title = none`
model an absent dictionary key (discovered-but-unvisited nodes); a visited
node stores `title = some t` where `t` itself is the `title if title else
None` value written by `crawl`. -/
structure NodeData where
  label : Str
  url : Str
  depth : Option Nat
  title : Option (Option Str)
deriving DecidableEq, Repr

/-- The result of fetching and parsing one page: the extracted `<title>`
(as returned by `_extract_title`) and the href values of the anchor tags
that survive the post-footer filter of `_extract_links`, in document
order. -/
structure Page where
  title : Option Str
  hrefs : List Str

/-- The fetchable web, as seen through `_fetch_page` plus HTML parsing:
`none` models a fetch failure, non-HTML content or a robots denial. -/
def Site := Str → Option Page

/-- Mutable crawl state (`self.graph`, `self.visited`, `self.queue`,
`self.url_to_id`, `self.next_id`), plus two write-only logs used to state
invariants: every `_fetch_page` call and every queue append after the
initial one. -/
structure CrawlState where
  nodes : List (Nat × NodeData)
  edges : List (Nat × Nat)
  visited : List Str
  queue : List (Str × Nat)
  url_to_id : List (Str × Nat)
  next_id : Nat
  fetchLog : List Str
  enqLog : List (Str × Nat)
deriving DecidableEq, Repr

/-- Dictionary lookup in `self.url_to_id`. -/
def lookupUrl : List (Str × Nat) → Str → Option Nat
  | [], _ => none
  | (u, i) :: rest, url => if u = url then some i else lookupUrl rest url

/-- `WebsiteGraphCrawler._get_node_id`. -/
def get_node_id (s : CrawlState) (url : Str) : Nat × CrawlState :=
  match lookupUrl s.url_to_id url with
  | some i => (i, s)
  | none =>
    (s.next_id,
     { s with url_to_id := s.url_to_id ++ [(url, s.next_id)], next_id := s.next_id + 1 })

/-- `node_id in self.graph`. -/
def hasNode (nodes : List (Nat × NodeData)) (i : Nat) : Bool :=
  nodes.any (fun p => p.1 == i)

/-- `self.graph.add_node(i, ...)` for an id that may already be present:
the attribute dictionary is replaced (both call sites write a superset of
any previously stored keys, so dictionary update and replacement agree). -/
def setNode (nodes : List (Nat × NodeData)) (i : Nat) (nd : NodeData) :
    List (Nat × NodeData) :=
  if hasNode nodes i then nodes.map (fun p => if p.1 == i then (i, nd) else p)
  else nodes ++ [(i, nd)]

/-- `self.graph.add_edge` on a `DiGraph`: at most one edge per ordered
pair. -/
def addEdge (edges : List (Nat × Nat)) (a b : Nat) : List (Nat × Nat) :=
  if (a, b) ∈ edges then edges else edges ++ [(a, b)]

/-- `self.visited.add(url)` (set semantics). -/
def addVisited (visited : List Str) (u : Str) : List Str :=
  if u ∈ visited then visited else visited ++ [u]

/-- `WebsiteGraphCrawler._extract_links`: normalize each href against the
page URL, drop rejected links and links already visited, and collect the
survivors as a set (first-insertion order). -/
def extract_links (cfg : CrawlerConfig) (visited : List Str) (hrefs : List Str)
    (base_url : Str) : List Str :=
  hrefs.foldl
    (fun links href =>
      match normalize_url cfg href base_url with
      | some n => if n ∉ visited ∧ n ∉ links then links ++ [n] else links
      | none => links) []

/-- One iteration of the `for link in links:` body of `crawl` (lines
340-355): skip an ignored link, otherwise ensure a target node exists, add
the edge, and enqueue the link if it is unvisited and below the depth
bound. -/
def link_step (cfg : CrawlerConfig) (node_id depth : Nat) (s : CrawlState)
    (link : Str) : CrawlState :=
  if should_ignore_url cfg.ignore_paths link then s
  else
    let r := get_node_id s link
    let tid := r.1
    let s1 := r.2
    let s2 :=
      if hasNode s1.nodes tid then s1
      else { s1 with nodes := s1.nodes ++ [(tid, ⟨link, link, none, none⟩)] }
    let s3 := { s2 with edges := addEdge s2.edges node_id tid }
    if link ∉ s3.visited ∧ depth < cfg.max_depth then
      { s3 with queue := s3.queue ++ [(link, depth + 1)],
                enqLog := s3.enqLog ++ [(link, depth + 1)] }
    else s3

/-- The whole `for link in links:` loop. -/
def process_links (cfg : CrawlerConfig) (node_id depth : Nat) :
    CrawlState → List Str → CrawlState
  | s, [] => s
  | s, link :: rest =>
    process_links cfg node_id depth (link_step cfg node_id depth s link) rest

/-- One dequeued iteration of the `while` loop of `crawl` (lines 299-359),
after the loop condition has been checked and the head popped. -/
def process_item (cfg : CrawlerConfig) (site : Site) (s : CrawlState)
    (url : Str) (depth : Nat) : CrawlState :=
  if depth > cfg.max_depth then s
  else if url ∈ s.visited then s
  else if should_ignore_url cfg.ignore_paths url then
    { s with visited := addVisited s.visited url }
  else
    let s1 := { s with visited := addVisited s.visited url,
                       fetchLog := s.fetchLog ++ [url] }
    match site url with
    | none => s1
    | some page =>
      let r := get_node_id s1 url
      let node_id := r.1
      let s2 := r.2
      let titleVal : Option Str :=
        match page.title with
        | some t => if t = [] then none else some t
        | none => none
      let label := match titleVal with | some t => t | none => url
      let s3 := { s2 with nodes := setNode s2.nodes node_id ⟨label, url, some depth, some titleVal⟩ }
      let links := extract_links cfg s3.visited page.hrefs url
      process_links cfg node_id depth s3 links

/-- `len(self.visited) < self.max_pages` has failed (no cap configured
means the loop never stops for this reason). -/
def capReached (cfg : CrawlerConfig) (s : CrawlState) : Bool :=
  match cfg.max_pages with
  | none => false
  | some m => decide (m ≤ s.visited.length)

/-- One full test of the `while` condition plus one iteration; `none` means
the loop exits (empty queue or page cap reached). -/
def crawl_step (cfg : CrawlerConfig) (site : Site) (s : CrawlState) :
    Option CrawlState :=
  match s.queue with
  | [] => none
  | (url, depth) :: rest =>
    if capReached cfg s then none
    else some (process_item cfg site { s with queue := rest } url depth)

/-- Run the crawl loop for at most `fuel` iterations. -/
def crawl_loop (cfg : CrawlerConfig) (site : Site) : Nat → CrawlState → CrawlState
  | 0, s => s
  | n + 1, s =>
    match crawl_step cfg site s with
    | none => s
    | some s2 => crawl_loop cfg site n s2

/-- State at the start of `crawl`: everything empty, the raw start URL
enqueued at depth 0 (line 296; the start URL is never normalized). -/
def initState (cfg : CrawlerConfig) : CrawlState :=
  ⟨[], [], [], [(cfg.start_url, 0)], [], 0, [], []⟩

/-- `WebsiteGraphCrawler.crawl`, run for at most `fuel` loop iterations
(the state is unchanged once the loop condition fails). -/
def crawl (cfg : CrawlerConfig) (site : Site) (fuel : Nat) : CrawlState :=
  crawl_loop cfg site fuel (initState cfg)

/-- The graph-plus-id-map data read (and written) by the exporters. -/
structure GraphData where
  nodes : List (Nat × NodeData)
  edges : List (Nat × Nat)
  url_to_id : List (Str × Nat)
deriving DecidableEq, Repr

/-- The crawl result as seen by the exporters. -/
def toGraph (s : CrawlState) : GraphData := ⟨s.nodes, s.edges, s.url_to_id⟩

/-- Python `str(node_id)`. -/
def natStr (n : Nat) : Str := (toString n).data

/-- `next((u for u, nid in self.url_to_id.items() if nid == node_id),
None)` — dictionaries iterate in insertion order. -/
def reverseLookup : List (Str × Nat) → Nat → Option Str
  | [], _ => none
  | (u, j) :: rest, i => if j = i then some u else reverseLookup rest i

/-- The URL fallback chain shared by the exporter fixup loops (lines
386-392 of `save_csv`, 483-489 of `save_json`): the stored `url` if truthy,
else the reverse id lookup if truthy, else the stored label. -/
def fixupUrl (u2i : List (Str × Nat)) (i : Nat) (nd : NodeData) : Str :=
  if nd.url ≠ [] then nd.url
  else
    match reverseLookup u2i i with
    | some u => if u ≠ [] then u else nd.label
    | none => nd.label

/-- One node's pass through the exporter fixup loop: the computed URL is
stored back, a falsy label is replaced by the URL, and a missing depth
becomes 0.  The `title` key is untouched. -/
def fixupNode (u2i : List (Str × Nat)) (i : Nat) (nd : NodeData) : NodeData :=
  let url := fixupUrl u2i i nd
  ⟨(if nd.label = [] then url else nd.label), url,
   (match nd.depth with | none => some 0 | some d => some d), nd.title⟩

/-- The "Ensure all nodes have required attributes before exporting" loop,
identical in `save_csv` (lines 383-397) and `save_json` (lines 480-494); it
mutates the stored node attributes in place. -/
def fixupGraph (g : GraphData) : GraphData :=
  { g with nodes := g.nodes.map (fun p => (p.1, fixupNode g.url_to_id p.1 p.2)) }

/-- The per-row URL computation of the export loops (lines 409-416 etc.):
the same fallback chain, then `str(url) if url else str(node_id)`. -/
def rowUrl (u2i : List (Str × Nat)) (i : Nat) (nd : NodeData) : Str :=
  let u := fixupUrl u2i i nd
  if u ≠ [] then u else natStr i

/-- URL used for an edge endpoint (`self.graph.nodes[id]` exists for every
edge endpoint in a crawl-produced graph; a missing node would raise in the
source, we default to `str(id)`). -/
def endpointUrl (g : GraphData) (i : Nat) : Str :=
  match g.nodes.find? (fun p => p.1 == i) with
  | some p => rowUrl g.url_to_id i p.2
  | none => natStr i

/-- `WebsiteGraphCrawler.save_csv`: the fixup loop runs first (mutating the
graph), then the node rows `[id, label, url, depth]` (with `id = url`) and
the edge rows `[source, target, "Directed"]` are emitted.  File writing is
not modelled; the returned graph is the state after the exporter ran. -/
def save_csv (g : GraphData) : GraphData × List (List Str) × List (List Str) :=
  let g1 := fixupGraph g
  let nodeRows := g1.nodes.map (fun p =>
    let url := rowUrl g1.url_to_id p.1 p.2
    [url, p.2.label, url, natStr (match p.2.depth with | some d => d | none => 0)])
  let edgeRows := g1.edges.map (fun e =>
    [endpointUrl g1 e.1, endpointUrl g1 e.2, str "Directed"])
  (g1, nodeRows, edgeRows)

/-- A node element of the Cytoscape.js JSON document. -/
structure JsonNode where
  id : Str
  label : Str
  url : Str
  depth : Nat
  title : Option Str
deriving DecidableEq, Repr

/-- `WebsiteGraphCrawler.save_json`: the same fixup loop, then
`elements.nodes` (with `title` only when truthy) and `elements.edges`
(source/target URL pairs). -/
def save_json (g : GraphData) : GraphData × List JsonNode × List (Str × Str) :=
  let g1 := fixupGraph g
  let nodesArr := g1.nodes.map (fun p =>
    let url := rowUrl g1.url_to_id p.1 p.2
    let title : Option Str :=
      match p.2.title with
      | some (some t) => if t = [] then none else some t
      | _ => none
    JsonNode.mk url p.2.label url (match p.2.depth with | some d => d | none => 0) title)
  let edgesArr := g1.edges.map (fun e => (endpointUrl g1 e.1, endpointUrl g1 e.2))
  (g1, nodesArr, edgesArr)

/-- Invariant behind the at-most-once-fetch property: the visited set and
the fetch log are duplicate-free, and every fetched URL is visited. -/
def FetchInv (s : CrawlState) : Prop :=
  s.visited.Nodup ∧ s.fetchLog.Nodup ∧ ∀ u ∈ s.fetchLog, u ∈ s.visited

/-- Invariant behind the ignore-exclusion property: every node of the graph
carries a URL the ignore filter accepts, and every edge target has a
node. -/
def NodesInv (cfg : CrawlerConfig) (s : CrawlState) : Prop :=
  (∀ p ∈ s.nodes, should_ignore_url cfg.ignore_paths p.2.url = false) ∧
  (∀ e ∈ s.edges, ∃ p ∈ s.nodes, p.1 = e.2)

/-- The 3-page fixture site of the round-trip example: `/` links to
`/about` and `/blog`, `/blog` links back to `/`. -/
def site3 : Site := fun u =>
  if u = str "https://x.test/" then some ⟨none, [str "/about", str "/blog"]⟩
  else if u = str "https://x.test/about" then some ⟨none, []⟩
  else if u = str "https://x.test/blog" then some ⟨none, [str "/"]⟩
  else none

/-- Fixture crawler: `max_depth=5`, no page cap, no ignore patterns. -/
def cfg1 : CrawlerConfig := ⟨str "https://x.test/", none, 5, []⟩

/-- Fixture crawler with `max_pages=1`. -/
def cfg9 : CrawlerConfig := ⟨str "https://x.test/", some 1, 5, []⟩

/-- Site for the C5 witness: the root links to `/about` and to the ignored
`/private/page`. -/
def siteP : Site := fun u =>
  if u = str "https://x.test/" then some ⟨none, [str "/about", str "/private/page"]⟩
  else if u = str "https://x.test/about" then some ⟨none, []⟩
  else none

/-- Crawler for the C5 witness, configured with ignore pattern
`/private*`. -/
def cfg5 : CrawlerConfig := ⟨str "https://x.test/", none, 5, [str "/private*"]⟩

/-- Fixture for C10: the start URL carries a non-root trailing slash. -/
def siteA : Site := fun u =>
  if u = str "https://x.test/a/" then some ⟨none, []⟩ else none

/-- Crawler for C10 whose start URL would not survive its own
normalization. -/
def cfgA : CrawlerConfig := ⟨str "https://x.test/a/", none, 5, []⟩

/-- Fixture for C2: with `max_depth=0` the root's neighbour `/about` stays
a discovered-but-unvisited node, whose attribute dictionary has no `depth`
key. -/
def siteD : Site := fun u =>
  if u = str "https://x.test/" then some ⟨none, [str "/about"]⟩ else none

/-- Crawler for the C2 fixture. -/
def cfgD : CrawlerConfig := ⟨str "https://x.test/", none, 0, []⟩

/-- The completed C2 fixture crawl, as seen by the exporters. -/
def gD : GraphData := toGraph (crawl cfgD siteD 10)

/-- Crawler exposing the C7 counterexample: the ignore pattern `/?/`
raw-matches the path `/a/` via `fnmatch` but matches neither `/a` nor its
normalized form. -/
def cfg7x : CrawlerConfig := ⟨str "https://x.test/", none, 5, [str "/?/"]⟩

/-- Length bookkeeping for `scanClose`, used for termination below. -/
theorem scanClose_length : ∀ (l a b : Str), scanClose l = some (a, b) → b.length < l.length := by
  intro l
  induction l with
  | nil => intro a b h; simp [scanClose] at h
  | cons c rest ih =>
    intro a b h
    by_cases hc : c = ']'
    · simp only [scanClose, hc, if_pos, Option.some.injEq, Prod.mk.injEq] at h
      obtain ⟨h1, h2⟩ := h
      subst h2
      simp only [List.length_cons]
      omega
    · simp only [scanClose, hc, if_neg, not_false_iff] at h
      match hr : scanClose rest with
      | some (a2, b2) =>
        rw [hr] at h
        simp only [Option.some.injEq, Prod.mk.injEq] at h
        obtain ⟨h1, h2⟩ := h
        have hlen := ih a2 b2 hr
        subst h2
        simp only [List.length_cons]
        omega
      | none => rw [hr] at h; simp at h

/-- The remainder returned by `splitClassCore` is shorter than its input. -/
theorem splitClassCore_length (l a b : Str) (h : splitClassCore l = some (a, b)) :
    b.length < l.length := by
  unfold splitClassCore at h
  split at h
  · rename_i rest
    match hr : scanClose rest with
    | some (a2, b2) =>
      rw [hr] at h
      simp only [Option.some.injEq, Prod.mk.injEq] at h
      obtain ⟨h1, h2⟩ := h
      have hlen := scanClose_length rest a2 b2 hr
      subst h2
      simp only [List.length_cons]
      omega
    | none => rw [hr] at h; simp at h
  · exact scanClose_length _ a b h

/-- The remainder returned by `splitClass` is shorter than its input. -/
theorem splitClass_length (l : Str) (neg : Bool) (a b : Str)
    (h : splitClass l = some (neg, a, b)) : b.length < l.length := by
  unfold splitClass at h
  split at h
  · rename_i rest
    match hr : splitClassCore rest with
    | some (a2, b2) =>
      rw [hr] at h
      simp at h
      obtain ⟨h0, h1, h2⟩ := h
      have hlen := splitClassCore_length rest a2 b2 hr
      subst h2
      simp only [List.length_cons]
      omega
    | none => rw [hr] at h; simp at h
  · match hr : splitClassCore l with
    | some (a2, b2) =>
      rw [hr] at h
      simp at h
      obtain ⟨h0, h1, h2⟩ := h
      have hlen := splitClassCore_length l a2 b2 hr
      subst h2
      omega
    | none => rw [hr] at h; simp at h

/-- Provenance of a URL appearing in the crawl: it is the raw start URL
(line 296 enqueues it unnormalized), or some call to `_normalize_url`
accepted it (every other queued or stored URL comes from
`_extract_links`). -/
def GoodUrl (cfg : CrawlerConfig) (x : Str) : Prop :=
  x = cfg.start_url ∨ ∃ u b, normalize_url cfg u b = some x

/-- Invariant: every queued URL and every node URL has crawl provenance. -/
def UrlProv (cfg : CrawlerConfig) (s : CrawlState) : Prop :=
  (∀ q ∈ s.queue, GoodUrl cfg q.1) ∧ (∀ p ∈ s.nodes, GoodUrl cfg p.2.url)

theorem get_node_id_visited (s : CrawlState) (url : Str) :
    (get_node_id s url).2.visited = s.visited := by
  unfold get_node_id
  cases h : lookupUrl s.url_to_id url <;> simp [h]

theorem get_node_id_fetchLog (s : CrawlState) (url : Str) :
    (get_node_id s url).2.fetchLog = s.fetchLog := by
  unfold get_node_id
  cases h : lookupUrl s.url_to_id url <;> simp [h]

theorem get_node_id_nodes (s : CrawlState) (url : Str) :
    (get_node_id s url).2.nodes = s.nodes := by
  unfold get_node_id
  cases h : lookupUrl s.url_to_id url <;> simp [h]

theorem get_node_id_edges (s : CrawlState) (url : Str) :
    (get_node_id s url).2.edges = s.edges := by
  unfold get_node_id
  cases h : lookupUrl s.url_to_id url <;> simp [h]

theorem get_node_id_enqLog (s : CrawlState) (url : Str) :
    (get_node_id s url).2.enqLog = s.enqLog := by
  unfold get_node_id
  cases h : lookupUrl s.url_to_id url <;> simp [h]

theorem link_step_visited (cfg : CrawlerConfig) (nid d : Nat) (s : CrawlState) (l : Str) :
    (link_step cfg nid d s l).visited = s.visited := by
  unfold link_step
  split
  · rfl
  · dsimp only
    split <;> split <;> simp [get_node_id_visited]

theorem link_step_fetchLog (cfg : CrawlerConfig) (nid d : Nat) (s : CrawlState) (l : Str) :
    (link_step cfg nid d s l).fetchLog = s.fetchLog := by
  unfold link_step
  split
  · rfl
  · dsimp only
    split <;> split <;> simp [get_node_id_fetchLog]

theorem process_links_visited (cfg : CrawlerConfig) (nid d : Nat) :
    ∀ (ls : List Str) (s : CrawlState),
      (process_links cfg nid d s ls).visited = s.visited := by
  intro ls
  induction ls with
  | nil => intro s; rfl
  | cons l rest ih =>
    intro s
    unfold process_links
    rw [ih, link_step_visited]

theorem process_links_fetchLog (cfg : CrawlerConfig) (nid d : Nat) :
    ∀ (ls : List Str) (s : CrawlState),
      (process_links cfg nid d s ls).fetchLog = s.fetchLog := by
  intro ls
  induction ls with
  | nil => intro s; rfl
  | cons l rest ih =>
    intro s
    unfold process_links
    rw [ih, link_step_fetchLog]

theorem addVisited_length (v : List Str) (u : Str) :
    (addVisited v u).length ≤ v.length + 1 := by
  unfold addVisited
  split <;> simp

theorem process_item_visited_len (cfg : CrawlerConfig) (site : Site)
    (s : CrawlState) (url : Str) (depth : Nat) :
    (process_item cfg site s url depth).visited.length ≤ s.visited.length + 1 := by
  unfold process_item
  split
  · omega
  · split
    · omega
    · split
      · exact addVisited_length s.visited url
      · cases h : site url with
        | none => simpa using addVisited_length s.visited url
        | some page =>
          simp only [h]
          rw [process_links_visited]
          simp [get_node_id_visited]
          have := addVisited_length s.visited url
          omega

theorem crawl_loop_visited_le (cfg : CrawlerConfig) (site : Site) (m : Nat)
    (hm : cfg.max_pages = some m) :
    ∀ (fuel : Nat) (s : CrawlState), s.visited.length ≤ m →
      (crawl_loop cfg site fuel s).visited.length ≤ m := by
  intro fuel
  induction fuel with
  | zero => intro s h; exact h
  | succ n ih =>
    intro s h
    unfold crawl_loop crawl_step
    cases hq : s.queue with
    | nil => exact h
    | cons hd rest =>
      by_cases hcap : capReached cfg s
      · simp [hcap]; exact h
      · simp only [hcap, if_false, Bool.false_eq_true]
        apply ih
        unfold capReached at hcap
        rw [hm] at hcap
        simp at hcap
        have hlt : s.visited.length < m := hcap
        have := process_item_visited_len cfg site { s with queue := rest } hd.1 hd.2
        simp at this
        omega

theorem process_item_fetchInv (cfg : CrawlerConfig) (site : Site)
    (s : CrawlState) (url : Str) (depth : Nat) (h : FetchInv s) :
    FetchInv (process_item cfg site s url depth) := by
  obtain ⟨hv, hf, hsub⟩ := h
  unfold process_item
  split
  · exact ⟨hv, hf, hsub⟩
  · split
    · exact ⟨hv, hf, hsub⟩
    · rename_i hnotmem
      have hnv : url ∉ s.visited := hnotmem
      have hadd : addVisited s.visited url = s.visited ++ [url] := by
        unfold addVisited; simp [hnv]
      split
      · refine ⟨?_, hf, ?_⟩
        · rw [hadd]; simp [List.Nodup.append, hv, hnv]
        · intro u hu; rw [hadd]; simp; exact Or.inl (hsub u hu)
      · have hnf : url ∉ s.fetchLog := fun hmem => hnv (hsub url hmem)
        cases hsite : site url with
        | none =>
          simp only [hsite]
          refine ⟨?_, ?_, ?_⟩
          · simp [hadd, List.Nodup.append, hv, hnv]
          · simp [List.Nodup.append, hf, hnf]
          · intro u hu
            simp at hu
            rw [hadd]
            rcases hu with hu | hu
            · simp; exact Or.inl (hsub u hu)
            · simp [hu]
        | some page =>
          simp only [hsite]
          rw [FetchInv] at *
          rw [process_links_visited, process_links_fetchLog]
          simp only [get_node_id_visited, get_node_id_fetchLog]
          refine ⟨?_, ?_, ?_⟩
          · simp [hadd, List.Nodup.append, hv, hnv]
          · simp [List.Nodup.append, hf, hnf]
          · intro u hu
            simp at hu
            rw [hadd]
            rcases hu with hu | hu
            · simp; exact Or.inl (hsub u hu)
            · simp [hu]

theorem crawl_loop_fetchInv (cfg : CrawlerConfig) (site : Site) :
    ∀ (fuel : Nat) (s : CrawlState), FetchInv s → FetchInv (crawl_loop cfg site fuel s) := by
  intro fuel
  induction fuel with
  | zero => intro s h; exact h
  | succ n ih =>
    intro s h
    unfold crawl_loop crawl_step
    cases hq : s.queue with
    | nil => exact h
    | cons hd rest =>
      by_cases hcap : capReached cfg s
      · simp [hcap]; exact h
      · simp only [hcap, if_false, Bool.false_eq_true]
        apply ih
        apply process_item_fetchInv
        exact ⟨h.1, h.2.1, h.2.2⟩

theorem link_step_enqLog (cfg : CrawlerConfig) (nid d : Nat) (s : CrawlState)
    (l : Str) (p : Str × Nat) (hp : p ∈ (link_step cfg nid d s l).enqLog) :
    p ∈ s.enqLog ∨ (p.2 = d + 1 ∧ d < cfg.max_depth) := by
  unfold link_step at hp
  split at hp
  · exact Or.inl hp
  · dsimp only at hp
    split at hp <;> split at hp <;> rename_i hcond <;>
      simp [get_node_id_enqLog] at hp <;>
      first
        | exact Or.inl hp
        | (cases hp with
            | inl h2 => exact Or.inl h2
            | inr h2 => exact Or.inr ⟨by rw [h2], hcond.2⟩)

theorem process_links_enqLog (cfg : CrawlerConfig) (nid d : Nat) :
    ∀ (ls : List Str) (s : CrawlState) (p : Str × Nat),
      p ∈ (process_links cfg nid d s ls).enqLog →
      p ∈ s.enqLog ∨ (p.2 = d + 1 ∧ d < cfg.max_depth) := by
  intro ls
  induction ls with
  | nil => intro s p hp; exact Or.inl hp
  | cons l rest ih =>
    intro s p hp
    unfold process_links at hp
    rcases ih _ p hp with hmem | hdone
    · exact link_step_enqLog cfg nid d s l p hmem
    · exact Or.inr hdone

theorem process_item_enqLog (cfg : CrawlerConfig) (site : Site)
    (s : CrawlState) (url : Str) (depth : Nat) (p : Str × Nat)
    (hp : p ∈ (process_item cfg site s url depth).enqLog) :
    p ∈ s.enqLog ∨ p.2 ≤ cfg.max_depth := by
  unfold process_item at hp
  split at hp
  · exact Or.inl hp
  · split at hp
    · exact Or.inl hp
    · split at hp
      · exact Or.inl hp
      · rename_i hdeep _ _
        cases hsite : site url with
        | none => rw [hsite] at hp; exact Or.inl hp
        | some page =>
          rw [hsite] at hp
          simp only at hp
          rcases process_links_enqLog cfg _ depth _ _ p hp with hmem | hdone
          · simp [get_node_id_enqLog] at hmem
            exact Or.inl hmem
          · right; omega

theorem crawl_step_characterization (cfg : CrawlerConfig) (site : Site)
    (s s2 : CrawlState) (h : crawl_step cfg site s = some s2) :
    ∃ url depth rest, s.queue = (url, depth) :: rest ∧
      s2 = process_item cfg site { s with queue := rest } url depth := by
  unfold crawl_step at h
  cases hq : s.queue with
  | nil => rw [hq] at h; exact absurd h (by simp)
  | cons hd rest =>
    rw [hq] at h
    obtain ⟨url, depth⟩ := hd
    dsimp only at h
    split at h
    · exact absurd h (by simp)
    · exact ⟨url, depth, rest, rfl, (Option.some.inj h).symm⟩

/-- Generic preservation principle for the crawl loop: any state property
that is insensitive to the queue and preserved by `process_item` holds at
every point of the crawl. -/
theorem crawl_loop_invariant (cfg : CrawlerConfig) (site : Site)
    (P : CrawlState → Prop)
    (hqueue : ∀ s q, P s → P { s with queue := q })
    (hstep : ∀ s url depth, P s → P (process_item cfg site s url depth)) :
    ∀ (fuel : Nat) (s : CrawlState), P s → P (crawl_loop cfg site fuel s) := by
  intro fuel
  induction fuel with
  | zero => exact fun s h => h
  | succ n ih =>
    intro s h
    show P (match crawl_step cfg site s with
            | none => s
            | some s2 => crawl_loop cfg site n s2)
    cases hc : crawl_step cfg site s with
    | none => exact h
    | some s2 =>
      obtain ⟨url, depth, rest, hq, hs2⟩ := crawl_step_characterization cfg site s s2 hc
      subst hs2
      exact ih _ (hstep _ url depth (hqueue s rest h))

theorem crawl_loop_enqLog (cfg : CrawlerConfig) (site : Site) :
    ∀ (fuel : Nat) (s : CrawlState),
      (∀ p ∈ s.enqLog, p.2 ≤ cfg.max_depth) →
      ∀ p ∈ (crawl_loop cfg site fuel s).enqLog, p.2 ≤ cfg.max_depth := by
  intro fuel s h
  refine crawl_loop_invariant cfg site
    (fun t => ∀ p ∈ t.enqLog, p.2 ≤ cfg.max_depth) (fun t q ht => ht) ?_ fuel s h
  intro t url depth ht p hp
  rcases process_item_enqLog cfg site t url depth p hp with hmem | hle
  · exact ht p hmem
  · exact hle

theorem hasNode_exists (nodes : List (Nat × NodeData)) (i : Nat)
    (h : hasNode nodes i = true) : ∃ p ∈ nodes, p.1 = i := by
  unfold hasNode at h
  rcases List.any_eq_true.mp h with ⟨p, hp, hpi⟩
  exact ⟨p, hp, by simpa using hpi⟩

theorem setNode_mem (nodes : List (Nat × NodeData)) (i : Nat) (nd : NodeData)
    (p : Nat × NodeData) (h : p ∈ setNode nodes i nd) : p ∈ nodes ∨ p = (i, nd) := by
  unfold setNode at h
  split at h
  · rcases List.mem_map.mp h with ⟨q, hq, hqe⟩
    by_cases hqi : q.1 == i
    · right; rw [if_pos hqi] at hqe; exact hqe.symm
    · left; rw [if_neg hqi] at hqe; exact hqe ▸ hq
  · rcases List.mem_append.mp h with hmem | hmem
    · exact Or.inl hmem
    · right; simpa using hmem

theorem setNode_id_preserved (nodes : List (Nat × NodeData)) (i : Nat)
    (nd : NodeData) (j : Nat) (h : ∃ p ∈ nodes, p.1 = j) :
    ∃ p ∈ setNode nodes i nd, p.1 = j := by
  obtain ⟨p, hp, hpj⟩ := h
  unfold setNode
  split
  · by_cases hpi : p.1 == i
    · refine ⟨(i, nd), List.mem_map.mpr ⟨p, hp, by rw [if_pos hpi]⟩, ?_⟩
      have : p.1 = i := by simpa using hpi
      simp [← this, hpj]
    · exact ⟨p, List.mem_map.mpr ⟨p, hp, by rw [if_neg hpi]⟩, hpj⟩
  · exact ⟨p, List.mem_append.mpr (Or.inl hp), hpj⟩

theorem addEdge_mem (edges : List (Nat × Nat)) (a b : Nat) (e : Nat × Nat)
    (h : e ∈ addEdge edges a b) : e ∈ edges ∨ e = (a, b) := by
  unfold addEdge at h
  split at h
  · exact Or.inl h
  · rcases List.mem_append.mp h with hmem | hmem
    · exact Or.inl hmem
    · right; simpa using hmem

/-- How one link iteration changes the graph: nothing (ignored link), or one
edge towards an id that already has a node, or one discovered node plus one
edge towards it. -/
theorem link_step_graph (cfg : CrawlerConfig) (nid d : Nat) (s : CrawlState) (l : Str) :
    ((link_step cfg nid d s l).nodes = s.nodes ∧
     (link_step cfg nid d s l).edges = s.edges) ∨
    (should_ignore_url cfg.ignore_paths l = false ∧
     ∃ tid,
       (link_step cfg nid d s l).edges = addEdge s.edges nid tid ∧
       (((link_step cfg nid d s l).nodes = s.nodes ∧ ∃ p ∈ s.nodes, p.1 = tid) ∨
        (link_step cfg nid d s l).nodes = s.nodes ++ [(tid, ⟨l, l, none, none⟩)])) := by
  by_cases hig : should_ignore_url cfg.ignore_paths l = true
  · left
    constructor <;> simp [link_step, hig]
  · right
    have hig2 : should_ignore_url cfg.ignore_paths l = false := by
      revert hig; cases should_ignore_url cfg.ignore_paths l <;> simp
    refine ⟨hig2, (get_node_id s l).1, ?_, ?_⟩
    · unfold link_step
      rw [if_neg hig]
      dsimp only
      split <;> split <;> simp [get_node_id_nodes, get_node_id_edges]
    · by_cases hhas : hasNode (get_node_id s l).2.nodes (get_node_id s l).1 = true
      · left
        constructor
        · unfold link_step
          rw [if_neg hig]
          dsimp only
          rw [if_pos hhas]
          split <;> simp [get_node_id_nodes]
        · have := hasNode_exists _ _ hhas
          simpa [get_node_id_nodes] using this
      · right
        unfold link_step
        rw [if_neg hig]
        dsimp only
        rw [if_neg hhas]
        split <;> simp [get_node_id_nodes]

theorem link_step_nodesInv (cfg : CrawlerConfig) (nid d : Nat) (s : CrawlState)
    (l : Str) (h : NodesInv cfg s) : NodesInv cfg (link_step cfg nid d s l) := by
  obtain ⟨hn, he⟩ := h
  rcases link_step_graph cfg nid d s l with ⟨hnod, hedg⟩ | ⟨hig, tid, hedg, hcase⟩
  · constructor
    · rw [hnod]; exact hn
    · rw [hnod, hedg]; exact he
  · rcases hcase with ⟨hnod, p0, hp0, hp0t⟩ | hnod
    · constructor
      · rw [hnod]; exact hn
      · rw [hnod, hedg]
        intro e heE
        rcases addEdge_mem _ _ _ _ heE with hmem | hmem
        · exact he e hmem
        · exact ⟨p0, hp0, by rw [hmem]; exact hp0t⟩
    · constructor
      · rw [hnod]
        intro p hp
        rcases List.mem_append.mp hp with hmem | hmem
        · exact hn p hmem
        · have : p = (tid, ⟨l, l, none, none⟩) := by simpa using hmem
          rw [this]
          exact hig
      · rw [hnod, hedg]
        intro e heE
        rcases addEdge_mem _ _ _ _ heE with hmem | hmem
        · rcases he e hmem with ⟨p, hp, hpe⟩
          exact ⟨p, List.mem_append.mpr (Or.inl hp), hpe⟩
        · exact ⟨(tid, ⟨l, l, none, none⟩), List.mem_append.mpr (Or.inr (by simp)), by rw [hmem]⟩

theorem process_links_nodesInv (cfg : CrawlerConfig) (nid d : Nat) :
    ∀ (ls : List Str) (s : CrawlState), NodesInv cfg s →
      NodesInv cfg (process_links cfg nid d s ls) := by
  intro ls
  induction ls with
  | nil => exact fun s h => h
  | cons l rest ih =>
    intro s h
    unfold process_links
    exact ih _ (link_step_nodesInv cfg nid d s l h)

theorem process_item_nodesInv (cfg : CrawlerConfig) (site : Site)
    (s : CrawlState) (url : Str) (depth : Nat) (h : NodesInv cfg s) :
    NodesInv cfg (process_item cfg site s url depth) := by
  obtain ⟨hn, he⟩ := h
  unfold process_item
  split
  · exact ⟨hn, he⟩
  · split
    · exact ⟨hn, he⟩
    · split
      · exact ⟨hn, he⟩
      · rename_i hig
        have hig2 : should_ignore_url cfg.ignore_paths url = false := by
          revert hig; cases should_ignore_url cfg.ignore_paths url <;> simp
        cases hsite : site url with
        | none => exact ⟨hn, he⟩
        | some page =>
          dsimp only
          apply process_links_nodesInv
          constructor
          · intro p hp
            simp only [get_node_id_nodes] at hp
            rcases setNode_mem _ _ _ _ hp with hmem | hmem
            · exact hn p hmem
            · rw [hmem]; exact hig2
          · intro e heE
            simp only [get_node_id_edges] at heE
            apply setNode_id_preserved
            simpa only [get_node_id_nodes] using he e heE

theorem crawl_nodesInv (cfg : CrawlerConfig) (site : Site) (fuel : Nat) :
    NodesInv cfg (crawl cfg site fuel) := by
  unfold crawl
  refine crawl_loop_invariant cfg site (NodesInv cfg) ?_ ?_ fuel (initState cfg) ?_
  · exact fun s q h => ⟨h.1, h.2⟩
  · exact fun s url depth h => process_item_nodesInv cfg site s url depth h
  · exact ⟨by simp [initState], by simp [initState]⟩

/-- C1 counterexample: on the claim's own fixture the final graph has only
2 edges, and the claimed edge from `/blog` (node 2) back to `/` (node 0) is
absent — `_extract_links` drops links whose normalized form is already in
the visited set, so the back-link found on `/blog` never produces an
edge. -/
theorem C1_counterexample :
    (crawl cfg1 site3 10).edges.length = 2 ∧
    ((2 : Nat), (0 : Nat)) ∉ (crawl cfg1 site3 10).edges ∧
    lookupUrl (crawl cfg1 site3 10).url_to_id (str "https://x.test/blog") = some 2 ∧
    lookupUrl (crawl cfg1 site3 10).url_to_id (str "https://x.test/") = some 0 ∧
    ¬ ((crawl cfg1 site3 10).edges.length = 3) := by
  decide

/-- C1 (amended): crawling the 3-page fixture with `max_depth=5` and no
page cap yields exactly 3 nodes — `/` visited at depth 0, `/about` and
`/blog` at depth 1 — but only the 2 edges `/`→`/about` and `/`→`/blog`;
the back-edge `/blog`→`/` is dropped because the root is already visited
when `/blog` is parsed. -/
theorem C1_fixture_graph :
    (crawl cfg1 site3 10).nodes =
      [(0, ⟨str "https://x.test/", str "https://x.test/", some 0, some none⟩),
       (1, ⟨str "https://x.test/about", str "https://x.test/about", some 1, some none⟩),
       (2, ⟨str "https://x.test/blog", str "https://x.test/blog", some 1, some none⟩)] ∧
    (crawl cfg1 site3 10).edges = [(0, 1), (0, 2)] ∧
    (crawl cfg1 site3 10).visited =
      [str "https://x.test/", str "https://x.test/about", str "https://x.test/blog"] ∧
    (crawl cfg1 site3 10).queue = [] := by
  decide

/-- C3: for any crawl — any configuration, any behaviour of the fetch
function, any number of loop iterations — the visited set never holds a URL
twice and `_fetch_page` is invoked at most once per URL (the fetch log is
duplicate-free). -/
theorem C3_at_most_once_fetch (cfg : CrawlerConfig) (site : Site) (fuel : Nat) :
    (crawl cfg site fuel).visited.Nodup ∧ (crawl cfg site fuel).fetchLog.Nodup := by
  have h := crawl_loop_fetchInv cfg site fuel (initState cfg)
    ⟨by simp [initState], by simp [initState], by simp [initState]⟩
  exact ⟨h.1, h.2.1⟩

/-- C4: every queue entry recorded after the initial one (the enqueue log)
has depth at most `max_depth`, for every crawl; deeper URLs are never
enqueued for fetching. -/
theorem C4_depth_bound (cfg : CrawlerConfig) (site : Site) (fuel : Nat) :
    ∀ p ∈ (crawl cfg site fuel).enqLog, p.2 ≤ cfg.max_depth := by
  exact crawl_loop_enqLog cfg site fuel (initState cfg) (by simp [initState])

/-- Witness for C4 at the fixture crawl: the recorded enqueue of `/about`
at depth 1 respects the bound 5. -/
theorem C4_depth_bound_witness :
    ((str "https://x.test/about", 1) : Str × Nat).2 ≤ cfg1.max_depth := by
  exact C4_depth_bound cfg1 site3 10 (str "https://x.test/about", 1) (by decide)

theorem should_ignore_of_pattern (ignorePaths : List Str) (url pat : Str)
    (hmem : pat ∈ ignorePaths)
    (hmatch : matchesIgnorePattern
      (if (urlparse url []).path.take 1 = ['/'] then (urlparse url []).path
       else '/' :: (urlparse url []).path)
      (if (if (urlparse url []).path.take 1 = ['/'] then (urlparse url []).path
          else '/' :: (urlparse url []).path) ≠ ['/'] then
        rstripChar '/' (if (urlparse url []).path.take 1 = ['/'] then (urlparse url []).path
          else '/' :: (urlparse url []).path)
       else (if (urlparse url []).path.take 1 = ['/'] then (urlparse url []).path
          else '/' :: (urlparse url []).path)) pat = true) :
    should_ignore_url ignorePaths url = true := by
  unfold should_ignore_url
  rw [if_neg (by rintro rfl; exact absurd hmem (List.not_mem_nil pat))]
  exact List.any_eq_true.mpr ⟨pat, hmem, hmatch⟩

/-- C8: a URL that resolves (against the base) to a host different from the
start URL's host is rejected by `_normalize_url` — the netloc comparison on
line 194 subsumes the host comparison. -/
theorem C8_domain_restriction (cfg : CrawlerConfig) (u b : Str)
    (h : hostOf (urlparse (urljoin b u) []).netloc ≠ hostOf (parsedStart cfg).netloc) :
    normalize_url cfg u b = none := by
  have hne : (urlparse (urljoin b u) []).netloc ≠ (parsedStart cfg).netloc :=
    fun he => h (by rw [he])
  unfold normalize_url
  dsimp only
  rw [if_pos hne]

/-- Witness for C8: an off-domain absolute link is rejected. -/
theorem C8_domain_restriction_witness :
    normalize_url cfg1 (str "https://other.test/p") (str "https://x.test/") = none := by
  exact C8_domain_restriction cfg1 (str "https://other.test/p") (str "https://x.test/")
    (by decide)

/-- C9: with a page cap configured the visited set never exceeds
`max_pages` at any point of any crawl, and on the 3-page fixture with
`max_pages=1` exactly the start URL is visited while the two discovered
neighbours still appear as unexpanded nodes. -/
theorem C9_page_cap :
    (∀ (cfg : CrawlerConfig) (site : Site) (fuel m : Nat), cfg.max_pages = some m →
        (crawl cfg site fuel).visited.length ≤ m) ∧
    (crawl cfg9 site3 10).visited = [str "https://x.test/"] ∧
    (crawl cfg9 site3 10).nodes.length = 3 ∧
    (crawl cfg9 site3 10).fetchLog = [str "https://x.test/"] := by
  refine ⟨?_, by decide, by decide, by decide⟩
  intro cfg site fuel m hm
  exact crawl_loop_visited_le cfg site m hm fuel (initState cfg) (by simp [initState])

/-- Witness for C9 at the capped fixture crawl. -/
theorem C9_page_cap_witness : (crawl cfg9 site3 10).visited.length ≤ 1 := by
  exact C9_page_cap.1 cfg9 site3 10 1 rfl

/-- C10: the start URL is enqueued, fetched and stored exactly as given —
the crawl applies no normalization to it — so the graph can hold a start
node whose `url` differs from the normalized form under which the same
page would be discovered via links. -/
theorem C10_start_url_raw :
    initState cfgA = ⟨[], [], [], [(cfgA.start_url, 0)], [], 0, [], []⟩ ∧
    (crawl cfgA siteA 10).fetchLog = [str "https://x.test/a/"] ∧
    (crawl cfgA siteA 10).nodes =
      [(0, ⟨str "https://x.test/a/", str "https://x.test/a/", some 0, some none⟩)] ∧
    normalize_url cfgA (str "https://x.test/a/") (str "https://x.test/a/") =
      some (str "https://x.test/a") ∧
    str "https://x.test/a" ≠ str "https://x.test/a/" := by
  refine ⟨rfl, by decide, by decide, by decide, by decide⟩

/-- C2 counterexample: running either exporter on a completed crawl that
contains a discovered-but-unvisited node changes the stored node
attributes — the fixup loop persistently writes `depth = 0` into node 1's
attribute dictionary, so the exporters are not read-only projections. -/
theorem C2_counterexample :
    (save_csv gD).1 ≠ gD ∧
    (save_json gD).1 ≠ gD ∧
    gD.nodes.find? (fun p => p.1 == 1) =
      some (1, ⟨str "https://x.test/about", str "https://x.test/about", none, none⟩) ∧
    (save_csv gD).1.nodes.find? (fun p => p.1 == 1) =
      some (1, ⟨str "https://x.test/about", str "https://x.test/about", some 0, none⟩) ∧
    (save_json gD).1.nodes.find? (fun p => p.1 == 1) =
      some (1, ⟨str "https://x.test/about", str "https://x.test/about", some 0, none⟩) := by
  refine ⟨by decide, by decide, by decide, by decide, by decide⟩

theorem map_fst_of_map_pair (l : List (Nat × NodeData)) (f : Nat × NodeData → NodeData) :
    (l.map (fun p => (p.1, f p))).map Prod.fst = l.map Prod.fst := by
  induction l with
  | nil => rfl
  | cons x xs ih => simp [ih]

/-- C2 (amended): both exporters run the same attribute-fixup loop over the
shared graph before emitting rows; the loop leaves the edge set, the
URL-to-id map, the node ids, every `title`, every truthy `url` and `label`,
and every present `depth` unchanged, and it leaves a fully-populated node
entirely alone — but it persistently stores defaults for missing
attributes (a missing `depth` becomes 0), so it mutates the graph on
discovered-but-unvisited nodes rather than defaulting only locally. -/
theorem C2_exporters_fixup (g : GraphData) :
    (save_csv g).1 = fixupGraph g ∧
    (save_json g).1 = fixupGraph g ∧
    (fixupGraph g).edges = g.edges ∧
    (fixupGraph g).url_to_id = g.url_to_id ∧
    (fixupGraph g).nodes.map Prod.fst = g.nodes.map Prod.fst ∧
    ∀ p ∈ g.nodes,
      (p.1, fixupNode g.url_to_id p.1 p.2) ∈ (fixupGraph g).nodes ∧
      (fixupNode g.url_to_id p.1 p.2).title = p.2.title ∧
      (p.2.url ≠ [] → (fixupNode g.url_to_id p.1 p.2).url = p.2.url) ∧
      (p.2.label ≠ [] → (fixupNode g.url_to_id p.1 p.2).label = p.2.label) ∧
      (∀ d, p.2.depth = some d → (fixupNode g.url_to_id p.1 p.2).depth = some d) ∧
      (p.2.url ≠ [] → p.2.label ≠ [] → p.2.depth ≠ none →
        fixupNode g.url_to_id p.1 p.2 = p.2) := by
  refine ⟨rfl, rfl, rfl, rfl, map_fst_of_map_pair g.nodes _, ?_⟩
  intro p hp
  obtain ⟨i, nd⟩ := p
  obtain ⟨lab, url, dep, tit⟩ := nd
  refine ⟨List.mem_map.mpr ⟨(i, ⟨lab, url, dep, tit⟩), hp, rfl⟩, rfl, ?_, ?_, ?_, ?_⟩
  · intro hurl
    simp only [fixupNode, fixupUrl]
    rw [if_pos hurl]
  · intro hlab
    simp only [fixupNode]
    rw [if_neg hlab]
  · intro d hd
    dsimp only at hd
    simp only [fixupNode]
    rw [hd]
  · intro hurl hlab hdep
    obtain ⟨d, hd⟩ := Option.ne_none_iff_exists'.mp hdep
    dsimp only at hd
    simp only [fixupNode, fixupUrl]
    rw [if_pos hurl, if_neg hlab, hd]

/-- Witness for C2 (amended) at the fixture graph and its fully-populated
root node. -/
theorem C2_exporters_fixup_witness :
    (save_csv gD).1 = fixupGraph gD ∧
    fixupNode gD.url_to_id 0
        (⟨str "https://x.test/", str "https://x.test/", some 0, some none⟩ : NodeData) =
      (⟨str "https://x.test/", str "https://x.test/", some 0, some none⟩ : NodeData) := by
  have hnodes : gD.nodes =
      [(0, ⟨str "https://x.test/", str "https://x.test/", some 0, some none⟩),
       (1, ⟨str "https://x.test/about", str "https://x.test/about", none, none⟩)] := by
    decide
  have hmem : ((0 : Nat),
      (⟨str "https://x.test/", str "https://x.test/", some 0, some none⟩ : NodeData)) ∈ gD.nodes := by
    rw [hnodes]
    exact List.mem_cons_self _ _
  refine ⟨(C2_exporters_fixup gD).1, ?_⟩
  exact ((C2_exporters_fixup gD).2.2.2.2.2 _ hmem).2.2.2.2.2
    (by decide) (by decide) (by decide)

/-- C7 counterexample: with ignore pattern `/?/` configured, the slashed
and unslashed forms of the same path normalize differently at a same-domain
base — the slashed form is rejected, the unslashed one survives — so the
trailing-slash identification does not hold for every crawler
configuration. -/
theorem C7_counterexample :
    normalize_url cfg7x (str "https://x.test/a/") (str "https://x.test/") = none ∧
    normalize_url cfg7x (str "https://x.test/a") (str "https://x.test/") =
      some (str "https://x.test/a") ∧
    ¬ (normalize_url cfg7x (str "https://x.test/a/") (str "https://x.test/") =
       normalize_url cfg7x (str "https://x.test/a") (str "https://x.test/")) := by
  refine ⟨by decide, by decide, by decide⟩

/-- Joining any base with these three absolute `https://x.test` URLs
returns them unchanged. -/
theorem urljoin_xtest_fixed (b : Str) :
    urljoin b (str "https://x.test/a/") = str "https://x.test/a/" ∧
    urljoin b (str "https://x.test/a") = str "https://x.test/a" ∧
    urljoin b (str "https://x.test/") = str "https://x.test/" := by
  by_cases hb : b = []
  · subst hb; exact ⟨rfl, rfl, rfl⟩
  · by_cases hs : (urlparse b []).scheme = str "https"
    · refine ⟨?_, ?_, ?_⟩ <;>
      · unfold urljoin
        rw [if_neg hb, if_neg (by decide)]
        dsimp only
        rw [hs]
        rw [if_neg (by decide), if_pos (by constructor <;> decide)]
        rfl
    · refine ⟨?_, ?_, ?_⟩ <;>
      · unfold urljoin
        rw [if_neg hb, if_neg (by decide)]
        dsimp only
        rw [if_pos (Or.inl (by rw [show (urlparse b []).scheme = (urlparse b []).scheme from rfl]; intro hcon; exact hs (by rw [← hcon]; rfl)))]

/-- C7 (amended): for a crawler whose start URL parses to scheme `https`
and host `x.test` and whose ignore list (which defaults to empty) is empty,
normalization identifies `/a/` with `/a` against any base string, while the
bare domain root keeps its trailing slash; with ignore patterns configured
the identification can fail (see the counterexample). -/
theorem C7_trailing_slash (cfg : CrawlerConfig) (b : Str)
    (hig : cfg.ignore_paths = [])
    (hs : (parsedStart cfg).scheme = str "https")
    (hn : (parsedStart cfg).netloc = str "x.test") :
    normalize_url cfg (str "https://x.test/a/") b =
      normalize_url cfg (str "https://x.test/a") b ∧
    normalize_url cfg (str "https://x.test/a") b = some (str "https://x.test/a") ∧
    normalize_url cfg (str "https://x.test/") b = some (str "https://x.test/") := by
  obtain ⟨h1, h2, h3⟩ := urljoin_xtest_fixed b
  have e1 : normalize_url cfg (str "https://x.test/a/") b = some (str "https://x.test/a") := by
    unfold normalize_url baseDomain
    rw [h1, hig, hn, hs]
    decide
  have e2 : normalize_url cfg (str "https://x.test/a") b = some (str "https://x.test/a") := by
    unfold normalize_url baseDomain
    rw [h2, hig, hn, hs]
    decide
  have e3 : normalize_url cfg (str "https://x.test/") b = some (str "https://x.test/") := by
    unfold normalize_url baseDomain
    rw [h3, hig, hn, hs]
    decide
  exact ⟨by rw [e1, e2], e2, e3⟩

/-- Witness for C7 (amended) at a concrete crawler and base. -/
theorem C7_trailing_slash_witness :
    normalize_url cfg1 (str "https://x.test/a/") (str "https://x.test/") =
      normalize_url cfg1 (str "https://x.test/a") (str "https://x.test/") ∧
    normalize_url cfg1 (str "https://x.test/a") (str "https://x.test/") =
      some (str "https://x.test/a") ∧
    normalize_url cfg1 (str "https://x.test/") (str "https://x.test/") =
      some (str "https://x.test/") := by
  exact C7_trailing_slash cfg1 (str "https://x.test/") rfl (by decide) (by decide)

/-- C6 counterexample: normalization is not idempotent.  For the
same-domain URL `https://x.test/a?/` the first normalization strips the
trailing slash out of the query, leaving a dangling `?`; re-normalizing
that output drops the now-empty query, producing a different URL. -/
theorem C6_counterexample :
    normalize_url cfg1 (str "https://x.test/a?/") (str "https://x.test/") =
      some (str "https://x.test/a?") ∧
    normalize_url cfg1 (str "https://x.test/a?") (str "https://x.test/") =
      some (str "https://x.test/a") ∧
    str "https://x.test/a" ≠ str "https://x.test/a?" := by
  refine ⟨by decide, by decide, by decide⟩

theorem splitFirst_some (c : Char) :
    ∀ (l a b : Str), splitFirst c l = (a, some b) → c ∉ a ∧ l = a ++ c :: b := by
  intro l
  induction l with
  | nil => intro a b h; simp [splitFirst] at h
  | cons x xs ih =>
    intro a b h
    unfold splitFirst at h
    split at h
    · rename_i hx
      simp only [Prod.mk.injEq, Option.some.injEq] at h
      obtain ⟨ha, hb⟩ := h
      subst hb
      rw [← ha]
      refine ⟨List.not_mem_nil _, ?_⟩
      rw [hx]
      rfl
    · rename_i hx
      simp only [Prod.mk.injEq] at h
      obtain ⟨ha, hb⟩ := h
      cases hr : splitFirst c xs with
      | mk a2 ob =>
        rw [hr] at ha hb
        simp only at ha hb
        subst hb
        obtain ⟨hna, heq⟩ := ih a2 b hr
        rw [← ha]
        constructor
        · intro hmem
          rcases List.mem_cons.mp hmem with hh | hh
          · exact hx hh.symm
          · exact hna hh
        · simp [heq]

theorem splitFirst_none (c : Char) :
    ∀ (l a : Str), splitFirst c l = (a, none) → a = l ∧ c ∉ l := by
  intro l
  induction l with
  | nil => intro a h; simp only [splitFirst, Prod.mk.injEq] at h; simp [← h.1]
  | cons x xs ih =>
    intro a h
    unfold splitFirst at h
    split at h
    · simp at h
    · rename_i hx
      simp only [Prod.mk.injEq] at h
      obtain ⟨ha, hb⟩ := h
      cases hr : splitFirst c xs with
      | mk a2 ob =>
        rw [hr] at ha hb
        simp only at ha hb
        subst hb
        obtain ⟨hae, hnm⟩ := ih a2 hr
        rw [← ha, hae]
        refine ⟨rfl, ?_⟩
        intro hmem
        rcases List.mem_cons.mp hmem with hh | hh
        · exact hx hh.symm
        · exact hnm hh

theorem splitFirst_append (c : Char) :
    ∀ (a b : Str), c ∉ a → splitFirst c (a ++ c :: b) = (a, some b) := by
  intro a
  induction a with
  | nil => intro b _; simp [splitFirst]
  | cons x xs ih =>
    intro b h
    have hx : x ≠ c := fun he => h (he ▸ List.mem_cons_self x xs)
    have hxs : c ∉ xs := fun hm => h (List.mem_cons_of_mem x hm)
    simp only [List.cons_append]
    unfold splitFirst
    rw [if_neg hx]
    simp [ih b hxs]

theorem splitFirst_not_found (c : Char) :
    ∀ (l : Str), c ∉ l → splitFirst c l = (l, none) := by
  intro l
  induction l with
  | nil => intro _; rfl
  | cons x xs ih =>
    intro h
    have hx : x ≠ c := fun he => h (he ▸ List.mem_cons_self x xs)
    have hxs : c ∉ xs := fun hm => h (List.mem_cons_of_mem x hm)
    unfold splitFirst
    rw [if_neg hx]
    simp [ih hxs]

theorem splitOnceOr_append (c : Char) (a b : Str) (h : c ∉ a) :
    splitOnceOr c (a ++ c :: b) = (a, b) := by
  unfold splitOnceOr
  rw [splitFirst_append c a b h]

theorem splitOnceOr_not_found (c : Char) (l : Str) (h : c ∉ l) :
    splitOnceOr c l = (l, []) := by
  unfold splitOnceOr
  rw [splitFirst_not_found c l h]

theorem takeWhile_append_all (p : Char → Bool) (a b : Str) (h : ∀ x ∈ a, p x = true) :
    (a ++ b).takeWhile p = a ++ b.takeWhile p := by
  induction a with
  | nil => simp
  | cons x xs ih => simp_all [List.takeWhile_cons]

theorem dropWhile_append_all (p : Char → Bool) (a b : Str) (h : ∀ x ∈ a, p x = true) :
    (a ++ b).dropWhile p = b.dropWhile p := by
  induction a with
  | nil => simp
  | cons x xs ih => simp_all [List.dropWhile_cons]

theorem dropWhile_cons_neg (p : Char → Bool) (x : Char) (l : Str) (h : p x = false) :
    (x :: l).dropWhile p = x :: l := by
  simp [List.dropWhile_cons, h]

theorem takeWhile_cons_neg (p : Char → Bool) (x : Char) (l : Str) (h : p x = false) :
    (x :: l).takeWhile p = [] := by
  simp [List.takeWhile_cons, h]

theorem removeUnsafe_eq_self (l : Str) (h : ∀ x ∈ l, isUnsafeUrlChar x = false) :
    removeUnsafe l = l := by
  unfold removeUnsafe
  exact List.filter_eq_self.mpr (fun a ha => by simp [h a ha])

theorem lstripC0_eq_self (l : Str) (h : ∀ x ∈ l.take 1, isC0OrSpace x = false) :
    lstripC0 l = l := by
  unfold lstripC0
  cases l with
  | nil => rfl
  | cons x xs => exact dropWhile_cons_neg _ x xs (h x (by simp))

theorem dropWhile_head_false (p : Char → Bool) :
    ∀ (l res : Str) (y : Char), l.dropWhile p = y :: res → p y = false := by
  intro l
  induction l with
  | nil => intro res y h; simp at h
  | cons x xs ih =>
    intro res y h
    rw [List.dropWhile_cons] at h
    split at h
    · exact ih res y h
    · rename_i hpx
      injection h with h1 h2
      rw [← h1]
      revert hpx
      cases p x <;> simp

theorem endsWithChar_append (c : Char) (a b : Str) (hb : b ≠ []) :
    endsWithChar c (a ++ b) = endsWithChar c b := by
  unfold endsWithChar
  rw [List.reverse_append]
  cases hrb : b.reverse with
  | nil => exact absurd (by simpa using congrArg List.reverse hrb) hb
  | cons y ys => simp

theorem endsWithChar_reverse (c : Char) (m : Str) :
    endsWithChar c m.reverse = (match m with | [] => false | y :: _ => y == c) := by
  unfold endsWithChar
  rw [List.reverse_reverse]
  rfl

theorem rstripChar_not_endsWith (c : Char) (l : Str) (h : endsWithChar c l = false) :
    rstripChar c l = l := by
  unfold rstripChar
  unfold endsWithChar at h
  cases hr : l.reverse with
  | nil =>
    have : l = [] := by simpa using congrArg List.reverse hr
    simp [this]
  | cons y ys =>
    rw [hr] at h
    simp only at h
    have h2 : List.dropWhile (fun x => x == c) (y :: ys) = y :: ys := by
      simp [List.dropWhile_cons, h]
    rw [h2, ← hr, List.reverse_reverse]

theorem rstripChar_no_trailing (c : Char) (l : Str) (h : rstripChar c l ≠ []) :
    endsWithChar c (rstripChar c l) = false := by
  unfold rstripChar at *
  rw [endsWithChar_reverse]
  cases hr : (l.reverse.dropWhile (fun x => x == c)) with
  | nil => rw [hr] at h
  | cons y ys => exact dropWhile_head_false _ _ _ _ hr

theorem rstripChar_idem (c : Char) (l : Str) : rstripChar c (rstripChar c l) = rstripChar c l := by
  by_cases h : rstripChar c l = []
  · rw [h]; rfl
  · exact rstripChar_not_endsWith c _ (rstripChar_no_trailing c l h)

theorem dropWhile_append_of_ne_nil (p : Char → Bool) :
    ∀ (x y : Str), x.dropWhile p ≠ [] → (x ++ y).dropWhile p = x.dropWhile p ++ y := by
  intro x
  induction x with
  | nil => intro y h; simp at h
  | cons a x2 ih =>
    intro y h
    rw [List.cons_append, List.dropWhile_cons, List.dropWhile_cons]
    rw [List.dropWhile_cons] at h
    split
    · rename_i hpa
      rw [if_pos hpa] at h
      exact ih y h
    · rfl

theorem rstripChar_append (c : Char) (a b : Str) (h : rstripChar c b ≠ []) :
    rstripChar c (a ++ b) = a ++ rstripChar c b := by
  unfold rstripChar at *
  rw [List.reverse_append]
  rw [dropWhile_append_of_ne_nil _ _ _ (fun he => h (by rw [he]; rfl))]
  simp

theorem rstripChar_head (c : Char) (l : Str) (h : rstripChar c l ≠ []) :
    (rstripChar c l).head? = l.head? := by
  have hsf : ∃ k, l = rstripChar c l ++ List.replicate k c := by
    unfold rstripChar
    refine ⟨(l.reverse.takeWhile (fun x => x == c)).length, ?_⟩
    have hsplit : l.reverse.takeWhile (fun x => x == c) ++ l.reverse.dropWhile (fun x => x == c) = l.reverse := List.takeWhile_append_dropWhile _ _
    have htw : ∀ x ∈ l.reverse.takeWhile (fun x => x == c), x = c := by
      intro x hx
      have := List.mem_takeWhile_imp hx
      simpa using this
    have hrep : l.reverse.takeWhile (fun x => x == c) = List.replicate ((l.reverse.takeWhile (fun x => x == c)).length) c := List.eq_replicate_of_mem htw
    calc l = l.reverse.reverse := by simp
    _ = (l.reverse.takeWhile (fun x => x == c) ++ l.reverse.dropWhile (fun x => x == c)).reverse := by rw [hsplit]
    _ = (l.reverse.dropWhile (fun x => x == c)).reverse ++ (l.reverse.takeWhile (fun x => x == c)).reverse := by rw [List.reverse_append]
    _ = (l.reverse.dropWhile (fun x => x == c)).reverse ++ List.replicate ((l.reverse.takeWhile (fun x => x == c)).length) c := by
          rw [hrep]; simp
  obtain ⟨k, hk⟩ := hsf
  conv_rhs => rw [hk]
  cases hres : rstripChar c l with
  | nil => exact absurd hres h
  | cons y ys => simp [hres]

theorem rstripChar_mem (c : Char) (l : Str) (x : Char) (h : x ∈ rstripChar c l) : x ∈ l := by
  unfold rstripChar at h
  have h1 := List.mem_reverse.mp h
  have h2 := (List.dropWhile_sublist (fun x => x == c)).mem h1
  exact List.mem_reverse.mp h2

theorem char_toNat_inj {a b : Char} (h : a.toNat = b.toNat) : a = b := by
  apply Char.ext
  exact UInt32.toNat.inj h

theorem char_eq_iff_toNat {a b : Char} : a = b ↔ a.toNat = b.toNat :=
  ⟨fun h => h ▸ rfl, char_toNat_inj⟩

theorem char_le_iff {a b : Char} : (a ≤ b) ↔ a.toNat ≤ b.toNat := Iff.rfl

theorem char_toNat_ofNat {n : Nat} (h : n < 55296) : (Char.ofNat n).toNat = n := by
  have hv : n.isValidChar := Or.inl h
  rw [Char.ofNat, dif_pos hv]
  rfl

theorem toLower_toNat_upper {c : Char} (h1 : 65 ≤ c.toNat) (h2 : c.toNat ≤ 90) :
    (Char.toLower c).toNat = c.toNat + 32 := by
  unfold Char.toLower
  dsimp only
  rw [if_pos ⟨h1, h2⟩]
  exact char_toNat_ofNat (by omega)

theorem toLower_eq_self {c : Char} (h : ¬ (65 ≤ c.toNat ∧ c.toNat ≤ 90)) :
    Char.toLower c = c := by
  unfold Char.toLower
  dsimp only
  rw [if_neg h]

theorem toLower_idem (c : Char) : Char.toLower (Char.toLower c) = Char.toLower c := by
  by_cases h : 65 ≤ c.toNat ∧ c.toNat ≤ 90
  · have ht := toLower_toNat_upper h.1 h.2
    exact toLower_eq_self (by omega)
  · rw [toLower_eq_self h]
    exact toLower_eq_self h

theorem isSchemeChar_iff {c : Char} : isSchemeChar c = true ↔
    ((97 ≤ c.toNat ∧ c.toNat ≤ 122) ∨ (65 ≤ c.toNat ∧ c.toNat ≤ 90) ∨
     (48 ≤ c.toNat ∧ c.toNat ≤ 57) ∨ c.toNat = 43 ∨ c.toNat = 45 ∨ c.toNat = 46) := by
  have e1 : ('a' : Char).toNat = 97 := by decide
  have e2 : ('z' : Char).toNat = 122 := by decide
  have e3 : ('A' : Char).toNat = 65 := by decide
  have e4 : ('Z' : Char).toNat = 90 := by decide
  have e5 : ('0' : Char).toNat = 48 := by decide
  have e6 : ('9' : Char).toNat = 57 := by decide
  have e7 : ('+' : Char).toNat = 43 := by decide
  have e8 : ('-' : Char).toNat = 45 := by decide
  have e9 : ('.' : Char).toNat = 46 := by decide
  unfold isSchemeChar
  simp only [Bool.or_eq_true, Bool.and_eq_true, decide_eq_true_eq, beq_iff_eq,
    char_le_iff, char_eq_iff_toNat, e1, e2, e3, e4, e5, e6, e7, e8, e9]
  tauto

theorem isAsciiAlpha_iff {c : Char} : isAsciiAlpha c = true ↔
    ((97 ≤ c.toNat ∧ c.toNat ≤ 122) ∨ (65 ≤ c.toNat ∧ c.toNat ≤ 90)) := by
  have e1 : ('a' : Char).toNat = 97 := by decide
  have e2 : ('z' : Char).toNat = 122 := by decide
  have e3 : ('A' : Char).toNat = 65 := by decide
  have e4 : ('Z' : Char).toNat = 90 := by decide
  unfold isAsciiAlpha
  simp only [Bool.or_eq_true, Bool.and_eq_true, decide_eq_true_eq,
    char_le_iff, e1, e2, e3, e4]

theorem isSchemeChar_toLower {c : Char} (h : isSchemeChar c = true) :
    isSchemeChar (Char.toLower c) = true := by
  rcases isSchemeChar_iff.mp h with h' | h' | h' | h' | h' | h'
  · rw [toLower_eq_self (by omega)]; exact h
  · have ht := toLower_toNat_upper h'.1 h'.2
    exact isSchemeChar_iff.mpr (Or.inl (by omega))
  · rw [toLower_eq_self (by omega)]; exact h
  · rw [toLower_eq_self (by omega)]; exact h
  · rw [toLower_eq_self (by omega)]; exact h
  · rw [toLower_eq_self (by omega)]; exact h

theorem isAsciiAlpha_toLower {c : Char} (h : isAsciiAlpha c = true) :
    isAsciiAlpha (Char.toLower c) = true := by
  rcases isAsciiAlpha_iff.mp h with h' | h'
  · rw [toLower_eq_self (by omega)]; exact h
  · have ht := toLower_toNat_upper h'.1 h'.2
    exact isAsciiAlpha_iff.mpr (Or.inl (by omega))

theorem isSchemeChar_ne_colon {c : Char} (h : isSchemeChar c = true) : c ≠ ':' := by
  intro he
  subst he
  rcases isSchemeChar_iff.mp h with h' | h' | h' | h' | h' | h' <;>
    revert h' <;> decide

theorem isAsciiAlpha_not_c0 {c : Char} (h : isAsciiAlpha c = true) :
    isC0OrSpace c = false := by
  rcases isAsciiAlpha_iff.mp h with h' | h' <;>
    · unfold isC0OrSpace
      simp only [decide_eq_false_iff_not]
      omega

theorem isSchemeChar_not_unsafe {c : Char} (h : isSchemeChar c = true) :
    isUnsafeUrlChar c = false := by
  have h9 : ('\t' : Char).toNat = 9 := by decide
  have h13 : ('\r' : Char).toNat = 13 := by decide
  have h10 : ('\n' : Char).toNat = 10 := by decide
  unfold isUnsafeUrlChar
  simp only [Bool.or_eq_false_iff, beq_eq_false_iff_ne, ne_eq, char_eq_iff_toNat,
    h9, h13, h10]
  rcases isSchemeChar_iff.mp h with h' | h' | h' | h' | h' | h' <;> omega

theorem splitOnceOr_no_c (c : Char) (l : Str) : c ∉ (splitOnceOr c l).1 := by
  unfold splitOnceOr
  rcases hsf : splitFirst c l with ⟨a, o⟩
  cases o with
  | none => exact (splitFirst_none c l a hsf).1 ▸ (splitFirst_none c l a hsf).2
  | some b => exact (splitFirst_some c l a b hsf).1

theorem splitOnceOr_fst_mem (c : Char) (l : Str) : ∀ x ∈ (splitOnceOr c l).1, x ∈ l := by
  unfold splitOnceOr
  rcases hsf : splitFirst c l with ⟨a, o⟩
  cases o with
  | none => intro x hx; exact hx
  | some b =>
    intro x hx
    rw [(splitFirst_some c l a b hsf).2]
    exact List.mem_append.mpr (Or.inl hx)

theorem splitOnceOr_snd_mem (c : Char) (l : Str) : ∀ x ∈ (splitOnceOr c l).2, x ∈ l := by
  unfold splitOnceOr
  rcases hsf : splitFirst c l with ⟨a, o⟩
  cases o with
  | none => intro x hx; exact absurd hx (List.not_mem_nil x)
  | some b =>
    intro x hx
    rw [(splitFirst_some c l a b hsf).2]
    exact List.mem_append.mpr (Or.inr (List.mem_cons_of_mem c hx))

theorem splitOnceOr_fst_head (c : Char) (l : Str) :
    (splitOnceOr c l).1 = [] ∨ (splitOnceOr c l).1.head? = l.head? := by
  unfold splitOnceOr
  rcases hsf : splitFirst c l with ⟨a, o⟩
  cases o with
  | none => right; rfl
  | some b =>
    cases a with
    | nil => left; rfl
    | cons y ys =>
      right
      rw [(splitFirst_some c l (y :: ys) b hsf).2]
      rfl

theorem lowerStr_goodScheme (b0 : Char) (bs : Str)
    (h1 : isAsciiAlpha b0 = true) (h2 : (b0 :: bs).all isSchemeChar = true) :
    goodScheme (lowerStr (b0 :: bs)) = true := by
  have hmap : lowerStr (b0 :: bs) = Char.toLower b0 :: lowerStr bs := rfl
  rw [hmap]
  unfold goodScheme
  have hall : ∀ x ∈ (b0 :: bs), isSchemeChar x = true := by
    intro x hx
    exact List.all_eq_true.mp h2 x hx
  refine (Bool.and_eq_true _ _).mpr ⟨(Bool.and_eq_true _ _).mpr ⟨?_, ?_⟩, ?_⟩
  · exact isAsciiAlpha_toLower h1
  · rw [← hmap]
    apply List.all_eq_true.mpr
    intro x hx
    unfold lowerStr at hx
    obtain ⟨y, hy, hyx⟩ := List.mem_map.mp hx
    rw [← hyx]
    exact isSchemeChar_toLower (hall y hy)
  · rw [← hmap]
    apply beq_iff_eq.mpr
    unfold lowerStr
    rw [List.map_map]
    apply List.map_congr_left
    intro a _
    exact toLower_idem a

theorem splitScheme_fst (l : Str) :
    (splitScheme l).1 = [] ∨ goodScheme (splitScheme l).1 = true := by
  unfold splitScheme
  rcases hsf : splitFirst ':' l with ⟨before, o⟩
  cases o with
  | none => left; rfl
  | some after =>
    cases before with
    | nil => left; rfl
    | cons b0 bb =>
      dsimp only
      by_cases hc : (isAsciiAlpha b0 && (b0 :: bb).all isSchemeChar) = true
      · rw [if_pos hc]
        right
        obtain ⟨ha, hb⟩ := Bool.and_eq_true _ _ |>.mp hc
        exact lowerStr_goodScheme b0 bb ha hb
      · rw [if_neg hc]
        left; rfl

theorem splitScheme_snd_mem (l : Str) : ∀ x ∈ (splitScheme l).2, x ∈ l := by
  unfold splitScheme
  rcases hsf : splitFirst ':' l with ⟨before, o⟩
  cases o with
  | none => intro x hx; exact hx
  | some after =>
    have hdec := (splitFirst_some ':' l before after hsf).2
    cases before with
    | nil => intro x hx; exact hx
    | cons b0 bb =>
      dsimp only
      by_cases hc : (isAsciiAlpha b0 && (b0 :: bb).all isSchemeChar) = true
      · rw [if_pos hc]
        intro x hx
        rw [hdec]
        exact List.mem_append.mpr (Or.inr (List.mem_cons_of_mem ':' hx))
      · rw [if_neg hc]
        intro x hx; exact hx

theorem splitScheme_append (s rest : Str) (hg : goodScheme s = true) :
    splitScheme (s ++ ':' :: rest) = (s, rest) := by
  cases s with
  | nil => exact absurd hg (by simp [goodScheme])
  | cons c cs =>
    unfold goodScheme at hg
    obtain ⟨h12, h3⟩ := Bool.and_eq_true _ _ |>.mp hg
    obtain ⟨h1, h2⟩ := Bool.and_eq_true _ _ |>.mp h12
    have hnc : ':' ∉ c :: cs := by
      intro hmem
      exact isSchemeChar_ne_colon (List.all_eq_true.mp h2 ':' hmem) rfl
    unfold splitScheme
    rw [splitFirst_append ':' (c :: cs) rest hnc]
    dsimp only
    rw [if_pos (Bool.and_eq_true _ _ |>.mpr ⟨h1, h2⟩)]
    rw [beq_iff_eq.mp h3]

theorem splitNetloc_eq (l : Str) :
    splitNetloc l = ([], l) ∨
    ∃ rest, l = '/' :: '/' :: rest ∧
      splitNetloc l = (rest.takeWhile (fun c => !(isNetlocEnd c)),
                       rest.dropWhile (fun c => !(isNetlocEnd c))) := by
  rw [splitNetloc.eq_def]
  split
  · rename_i rest
    right
    exact ⟨rest, rfl, rfl⟩
  · left
    rfl

theorem afterLastSlash_mem (l : Str) : ∀ x ∈ afterLastSlash l, x ∈ l := by
  intro x hx
  unfold afterLastSlash at hx
  have h1 := List.mem_reverse.mp hx
  have h2 := (List.takeWhile_sublist (fun c => decide (c ≠ '/'))).mem h1
  exact List.mem_reverse.mp h2

theorem upToLastSlash_mem (l : Str) : ∀ x ∈ upToLastSlash l, x ∈ l := by
  intro x hx
  unfold upToLastSlash at hx
  have h1 := List.mem_reverse.mp hx
  have h2 := (List.dropWhile_sublist (fun c => decide (c ≠ '/'))).mem h1
  exact List.mem_reverse.mp h2

theorem afterLastSlash_no_slash (l : Str) : '/' ∉ afterLastSlash l := by
  intro hx
  unfold afterLastSlash at hx
  have h1 := List.mem_reverse.mp hx
  have h2 := List.mem_takeWhile_imp h1
  simp at h2

theorem upTo_append_afterLast (l : Str) : upToLastSlash l ++ afterLastSlash l = l := by
  unfold upToLastSlash afterLastSlash
  rw [← List.reverse_append]
  rw [List.takeWhile_append_dropWhile]
  exact List.reverse_reverse l

theorem upToLastSlash_ends_slash (l : Str) (h : upToLastSlash l ≠ []) :
    endsWithChar '/' (upToLastSlash l) = true := by
  unfold upToLastSlash at *
  rw [endsWithChar_reverse]
  cases hr : (l.reverse.dropWhile (fun c => decide (c ≠ '/'))) with
  | nil => rw [hr] at h; exact absurd rfl h
  | cons y ys =>
    have := dropWhile_head_false _ _ _ _ hr
    simp only [decide_eq_false_iff_not, not_not] at this
    simp [this]

theorem upToLastSlash_ne_nil (l : Str) (h : '/' ∈ l) : upToLastSlash l ≠ [] := by
  unfold upToLastSlash
  intro he
  have h2 : l.reverse.dropWhile (fun c => decide (c ≠ '/')) = [] := by
    have := congrArg List.reverse he
    simpa using this
  have h3 : ∀ x ∈ l.reverse, decide (x ≠ '/') = true := by
    have hall := List.dropWhile_eq_nil_iff.mp h2
    exact hall
  have h4 := h3 '/' (List.mem_reverse.mpr h)
  simp at h4

theorem afterLastSlash_of_ends_slash (y : Str) (h : endsWithChar '/' y = true) :
    afterLastSlash y = [] := by
  unfold afterLastSlash
  unfold endsWithChar at h
  cases hr : y.reverse with
  | nil => rfl
  | cons c cs =>
    rw [hr] at h
    simp only at h
    have hc : c = '/' := beq_iff_eq.mp h
    rw [takeWhile_cons_neg _ _ _ (by simp [hc])]
    rfl

theorem afterLastSlash_append_no_slash (a b : Str) (h : ∀ x ∈ b, x ≠ '/') :
    afterLastSlash (a ++ b) = afterLastSlash a ++ b := by
  unfold afterLastSlash
  rw [List.reverse_append]
  rw [takeWhile_append_all _ _ _ (by intro x hx; simp [h x (List.mem_reverse.mp hx)])]
  rw [List.reverse_append, List.reverse_reverse]

theorem upToLastSlash_append_no_slash (a b : Str) (h : ∀ x ∈ b, x ≠ '/') :
    upToLastSlash (a ++ b) = upToLastSlash a := by
  unfold upToLastSlash
  rw [List.reverse_append]
  rw [dropWhile_append_all _ _ _ (by intro x hx; simp [h x (List.mem_reverse.mp hx)])]

theorem head?_append_left (a b : Str) (h : a ≠ []) : (a ++ b).head? = a.head? := by
  cases a with
  | nil => exact absurd rfl h
  | cons x xs => rfl

theorem take_one_append (a b : Str) (h : a ≠ []) : (a ++ b).take 1 = a.take 1 := by
  cases a with
  | nil => exact absurd rfl h
  | cons x xs => simp

theorem mem_removeUnsafe_not_unsafe (l : Str) (x : Char) (hx : x ∈ removeUnsafe l) :
    isUnsafeUrlChar x = false := by
  unfold removeUnsafe at hx
  have := List.of_mem_filter hx
  simpa using this

theorem urlsplit_clean (X : Str) (hn : (urlsplit X []).netloc ≠ []) :
    ((urlsplit X []).scheme = [] ∨ goodScheme (urlsplit X []).scheme = true) ∧
    (∀ c ∈ (urlsplit X []).netloc, isNetlocEnd c = false ∧ isUnsafeUrlChar c = false) ∧
    ((urlsplit X []).path = [] ∨ (urlsplit X []).path.take 1 = ['/']) ∧
    (∀ c ∈ (urlsplit X []).path, c ≠ '?' ∧ c ≠ '#' ∧ isUnsafeUrlChar c = false) ∧
    (∀ c ∈ (urlsplit X []).query, c ≠ '#' ∧ isUnsafeUrlChar c = false) := by
  have e_sch : (urlsplit X []).scheme =
      (if (splitScheme (removeUnsafe (lstripC0 X))).1 = [] then cleanSchemeArg []
       else (splitScheme (removeUnsafe (lstripC0 X))).1) := rfl
  have e_netloc : (urlsplit X []).netloc =
      (splitNetloc (splitScheme (removeUnsafe (lstripC0 X))).2).1 := rfl
  have e_path : (urlsplit X []).path =
      (splitOnceOr '?' (splitOnceOr '#'
        (splitNetloc (splitScheme (removeUnsafe (lstripC0 X))).2).2).1).1 := rfl
  have e_query : (urlsplit X []).query =
      (splitOnceOr '?' (splitOnceOr '#'
        (splitNetloc (splitScheme (removeUnsafe (lstripC0 X))).2).2).1).2 := rfl
  have hu1 : ∀ x ∈ removeUnsafe (lstripC0 X), isUnsafeUrlChar x = false :=
    fun x hx => mem_removeUnsafe_not_unsafe _ x hx
  have hsnd : ∀ x ∈ (splitScheme (removeUnsafe (lstripC0 X))).2,
      isUnsafeUrlChar x = false :=
    fun x hx => hu1 x (splitScheme_snd_mem _ x hx)
  rcases splitNetloc_eq (splitScheme (removeUnsafe (lstripC0 X))).2 with hnl | ⟨rest, hrest, hnl⟩
  · rw [e_netloc, hnl] at hn
    exact absurd rfl hn
  · have e_n2 : (splitNetloc (splitScheme (removeUnsafe (lstripC0 X))).2).1 =
        rest.takeWhile (fun c => !(isNetlocEnd c)) := by rw [hnl]
    have e_r2 : (splitNetloc (splitScheme (removeUnsafe (lstripC0 X))).2).2 =
        rest.dropWhile (fun c => !(isNetlocEnd c)) := by rw [hnl]
    have hrestmem : ∀ x ∈ rest, isUnsafeUrlChar x = false := by
      intro x hx
      apply hsnd
      rw [hrest]
      exact List.mem_cons_of_mem _ (List.mem_cons_of_mem _ hx)
    have hr2mem : ∀ x ∈ (splitNetloc (splitScheme (removeUnsafe (lstripC0 X))).2).2,
        isUnsafeUrlChar x = false := by
      intro x hx
      rw [e_r2] at hx
      exact hrestmem x ((List.dropWhile_sublist _).mem hx)
    have hf1mem : ∀ x ∈ (splitOnceOr '#'
        (splitNetloc (splitScheme (removeUnsafe (lstripC0 X))).2).2).1,
        isUnsafeUrlChar x = false :=
      fun x hx => hr2mem x (splitOnceOr_fst_mem _ _ x hx)
    refine ⟨?_, ?_, ?_, ?_, ?_⟩
    · rw [e_sch]
      by_cases hb : (splitScheme (removeUnsafe (lstripC0 X))).1 = []
      · rw [if_pos hb]
        left
        rfl
      · rw [if_neg hb]
        rcases splitScheme_fst (removeUnsafe (lstripC0 X)) with h | h
        · exact absurd h hb
        · right; exact h
    · intro c hc
      rw [e_netloc, e_n2] at hc
      constructor
      · have := List.mem_takeWhile_imp hc
        simpa using this
      · exact hrestmem c ((List.takeWhile_sublist _).mem hc)
    · rw [e_path]
      cases hp : (splitOnceOr '?' (splitOnceOr '#'
          (splitNetloc (splitScheme (removeUnsafe (lstripC0 X))).2).2).1).1 with
      | nil => left; rfl
      | cons y ys =>
        right
        have hy_mem : y ∈ (splitOnceOr '?' (splitOnceOr '#'
            (splitNetloc (splitScheme (removeUnsafe (lstripC0 X))).2).2).1).1 := by
          rw [hp]
          exact List.mem_cons_self y ys
        have hy_ne_q : y ≠ '?' := by
          intro he
          exact splitOnceOr_no_c '?' _ (he ▸ hy_mem)
        have hy_ne_h : y ≠ '#' := by
          intro he
          apply splitOnceOr_no_c '#' (splitNetloc (splitScheme (removeUnsafe (lstripC0 X))).2).2
          exact splitOnceOr_fst_mem '?' _ '#' (he ▸ hy_mem)
        rcases splitOnceOr_fst_head '?' (splitOnceOr '#'
            (splitNetloc (splitScheme (removeUnsafe (lstripC0 X))).2).2).1 with hh | hh
        · rw [hp] at hh; exact absurd hh (by simp)
        · rw [hp] at hh
          rcases splitOnceOr_fst_head '#'
              (splitNetloc (splitScheme (removeUnsafe (lstripC0 X))).2).2 with hh2 | hh2
          · rw [hh2] at hh; exact absurd hh (by simp)
          · rw [hh2, e_r2] at hh
            cases hdw : rest.dropWhile (fun c => !(isNetlocEnd c)) with
            | nil => rw [hdw] at hh; exact absurd hh (by simp)
            | cons z zs =>
              rw [hdw] at hh
              simp only [List.head?_cons, Option.some.injEq] at hh
              have hz := dropWhile_head_false _ _ _ _ hdw
              have hzn : isNetlocEnd z = true := by
                revert hz
                cases isNetlocEnd z <;> simp
              have hyz : y = z := hh
              have : z = '/' := by
                unfold isNetlocEnd at hzn
                rcases Bool.or_eq_true _ _ |>.mp hzn with h' | h'
                · rcases Bool.or_eq_true _ _ |>.mp h' with h'' | h''
                  · exact beq_iff_eq.mp h''
                  · exact absurd (beq_iff_eq.mp h'') (hyz ▸ hy_ne_q)
                · exact absurd (beq_iff_eq.mp h') (hyz ▸ hy_ne_h)
              simp [hyz, this]
    · intro c hc
      rw [e_path] at hc
      refine ⟨?_, ?_, ?_⟩
      · intro he
        exact splitOnceOr_no_c '?' _ (he ▸ hc)
      · intro he
        apply splitOnceOr_no_c '#' (splitNetloc (splitScheme (removeUnsafe (lstripC0 X))).2).2
        apply splitOnceOr_fst_mem
        exact he ▸ hc
      · exact hf1mem c (splitOnceOr_fst_mem _ _ c hc)
    · intro c hc
      rw [e_query] at hc
      have hcf : c ∈ (splitOnceOr '#'
          (splitNetloc (splitScheme (removeUnsafe (lstripC0 X))).2).2).1 :=
        splitOnceOr_snd_mem _ _ c hc
      refine ⟨?_, hf1mem c hcf⟩
      intro he
      exact splitOnceOr_no_c '#' _ (he ▸ hcf)

theorem urlparse_scheme (X d : Str) : (urlparse X d).scheme = (urlsplit X d).scheme := by
  unfold urlparse
  dsimp only
  split <;> rfl

theorem urlparse_netloc (X d : Str) : (urlparse X d).netloc = (urlsplit X d).netloc := by
  unfold urlparse
  dsimp only
  split <;> rfl

theorem urlparse_query (X d : Str) : (urlparse X d).query = (urlsplit X d).query := by
  unfold urlparse
  dsimp only
  split <;> rfl

theorem urlparse_fragment (X d : Str) :
    (urlparse X d).fragment = (urlsplit X d).fragment := by
  unfold urlparse
  dsimp only
  split <;> rfl

theorem urlparse_path_params (X d : Str) :
    ((¬ ((urlsplit X d).scheme ∈ usesParams ∧ ';' ∈ (urlsplit X d).path)) ∧
      (urlparse X d).path = (urlsplit X d).path ∧ (urlparse X d).params = []) ∨
    (((urlsplit X d).scheme ∈ usesParams ∧ ';' ∈ (urlsplit X d).path) ∧
      (urlparse X d).path = (splitParams (urlsplit X d).path).1 ∧
      (urlparse X d).params = (splitParams (urlsplit X d).path).2) := by
  unfold urlparse
  dsimp only
  by_cases h : (urlsplit X d).scheme ∈ usesParams ∧ ';' ∈ (urlsplit X d).path
  · rw [if_pos h]
    right
    exact ⟨h, rfl, rfl⟩
  · rw [if_neg h]
    left
    exact ⟨h, rfl, rfl⟩

theorem splitParams_of_split (l a b : Str) (hl : '/' ∈ l)
    (hsf : splitFirst ';' (afterLastSlash l) = (a, some b)) :
    splitParams l = (upToLastSlash l ++ a, b) := by
  unfold splitParams
  rw [if_pos hl, hsf]

theorem splitParams_of_none (l a : Str) (hl : '/' ∈ l)
    (hsf : splitFirst ';' (afterLastSlash l) = (a, none)) :
    splitParams l = (l, []) := by
  unfold splitParams
  rw [if_pos hl, hsf]

theorem urlparse_clean (X : Str) (hs : (urlparse X []).scheme ≠ [])
    (hn : (urlparse X []).netloc ≠ []) :
    CleanParts ⟨(urlparse X []).scheme, (urlparse X []).netloc, (urlparse X []).path,
      (urlparse X []).params, (urlparse X []).query, []⟩ := by
  have hsch := urlparse_scheme X []
  have hnet := urlparse_netloc X []
  have hqe := urlparse_query X []
  have hn' : (urlsplit X []).netloc ≠ [] := by rw [← hnet]; exact hn
  obtain ⟨hA, hB, hC, hD, hE⟩ := urlsplit_clean X hn'
  have hgood : goodScheme (urlparse X []).scheme = true := by
    rcases hA with h | h
    · rw [hsch] at hs; exact absurd h hs
    · rw [hsch]; exact h
  have key : ((urlparse X []).path = [] ∨ (urlparse X []).path.take 1 = ['/']) ∧
      (∀ c ∈ (urlparse X []).path, c ≠ '?' ∧ c ≠ '#' ∧ isUnsafeUrlChar c = false) ∧
      ((urlparse X []).params ≠ [] →
        (urlparse X []).scheme ∈ usesParams ∧ (urlparse X []).path ≠ []) ∧
      (';' ∈ afterLastSlash (urlparse X []).path →
        (urlparse X []).scheme ∉ usesParams) ∧
      (∀ c ∈ (urlparse X []).params,
        c ≠ '/' ∧ c ≠ '?' ∧ c ≠ '#' ∧ isUnsafeUrlChar c = false) := by
    rcases urlparse_path_params X [] with ⟨hcond, hpe, hpme⟩ | ⟨hcond, hpe, hpme⟩
    · refine ⟨?_, ?_, ?_, ?_, ?_⟩
      · rw [hpe]; exact hC
      · intro c hc; rw [hpe] at hc; exact hD c hc
      · intro hne; rw [hpme] at hne; exact absurd rfl hne
      · intro hsemi hup
        rw [hpe] at hsemi
        exact hcond ⟨hsch ▸ hup, afterLastSlash_mem _ ';' hsemi⟩
      · intro c hc; rw [hpme] at hc; exact absurd hc (List.not_mem_nil c)
    · have hslash : '/' ∈ (urlsplit X []).path := by
        rcases hC with h | h
        · rw [h] at hcond; exact absurd hcond.2 (List.not_mem_nil ';')
        · cases hp : (urlsplit X []).path with
          | nil => rw [hp] at hcond; exact absurd hcond.2 (List.not_mem_nil ';')
          | cons z zs =>
            rw [hp] at h
            simp only [List.take_succ_cons, List.take_zero] at h
            have hz : z = '/' := by injection h
            rw [← hz]
            exact List.mem_cons_self z zs
      rcases hsf : splitFirst ';' (afterLastSlash (urlsplit X []).path) with ⟨a, o⟩
      cases o with
      | some b =>
        obtain ⟨hna, hdec⟩ := splitFirst_some ';' _ a b hsf
        have hsp := splitParams_of_split _ a b hslash hsf
        have hpe2 : (urlparse X []).path = upToLastSlash (urlsplit X []).path ++ a := by
          rw [hpe, hsp]
        have hpme2 : (urlparse X []).params = b := by
          rw [hpme, hsp]
        have hamem : ∀ x ∈ a, x ∈ (urlsplit X []).path := by
          intro x hx
          apply afterLastSlash_mem
          rw [hdec]
          exact List.mem_append.mpr (Or.inl hx)
        have hbmem : ∀ x ∈ b, x ∈ afterLastSlash (urlsplit X []).path := by
          intro x hx
          rw [hdec]
          exact List.mem_append.mpr (Or.inr (List.mem_cons_of_mem ';' hx))
        have hup_ne : upToLastSlash (urlsplit X []).path ≠ [] :=
          upToLastSlash_ne_nil _ hslash
        refine ⟨?_, ?_, ?_, ?_, ?_⟩
        · right
          rw [hpe2, take_one_append _ _ hup_ne]
          have h1 : (urlsplit X []).path.take 1 =
              (upToLastSlash (urlsplit X []).path).take 1 := by
            conv_lhs => rw [← upTo_append_afterLast (urlsplit X []).path]
            rw [take_one_append _ _ hup_ne]
          rw [← h1]
          rcases hC with h | h
          · rw [h] at hslash; exact absurd hslash (List.not_mem_nil '/')
          · exact h
        · intro c hc
          rw [hpe2] at hc
          rcases List.mem_append.mp hc with hh | hh
          · exact hD c (upToLastSlash_mem _ c hh)
          · exact hD c (hamem c hh)
        · intro _
          constructor
          · rw [hsch]; exact hcond.1
          · rw [hpe2]
            intro he
            exact hup_ne (List.append_eq_nil.mp he).1
        · intro hsemi _
          rw [hpe2] at hsemi
          have hnos : ∀ x ∈ a, x ≠ '/' := by
            intro x hx he
            refine afterLastSlash_no_slash (urlsplit X []).path ?_
            rw [hdec]
            exact List.mem_append.mpr (Or.inl (he ▸ hx))
          have hals : afterLastSlash (upToLastSlash (urlsplit X []).path ++ a) = a := by
            rw [afterLastSlash_append_no_slash _ a hnos,
                afterLastSlash_of_ends_slash _ (upToLastSlash_ends_slash _ hup_ne)]
            exact List.nil_append a
          rw [hals] at hsemi
          exact hna hsemi
        · intro c hc
          rw [hpme2] at hc
          have hc2 := hbmem c hc
          refine ⟨?_, ?_, ?_, ?_⟩
          · intro he
            exact afterLastSlash_no_slash _ (he ▸ hc2)
          · exact (hD c (afterLastSlash_mem _ c hc2)).1
          · exact (hD c (afterLastSlash_mem _ c hc2)).2.1
          · exact (hD c (afterLastSlash_mem _ c hc2)).2.2
      | none =>
        obtain ⟨hae, hnm⟩ := splitFirst_none ';' _ a hsf
        have hsp := splitParams_of_none _ a hslash hsf
        have hpe2 : (urlparse X []).path = (urlsplit X []).path := by
          rw [hpe, hsp]
        have hpme2 : (urlparse X []).params = [] := by
          rw [hpme, hsp]
        refine ⟨?_, ?_, ?_, ?_, ?_⟩
        · rw [hpe2]; exact hC
        · intro c hc; rw [hpe2] at hc; exact hD c hc
        · intro hne; rw [hpme2] at hne; exact absurd rfl hne
        · intro hsemi _; rw [hpe2] at hsemi; exact hnm hsemi
        · intro c hc; rw [hpme2] at hc; exact absurd hc (List.not_mem_nil c)
  unfold CleanParts
  dsimp only
  exact ⟨hgood, hn, fun c hc => hB c (hnet ▸ hc), key.1, key.2.1, key.2.2.1,
    key.2.2.2.1, key.2.2.2.2, fun c hc => hE c (hqe ▸ hc), rfl⟩

theorem urlParts_eq (r : UrlParts) (s n p pr qq f : Str) (h1 : r.scheme = s)
    (h2 : r.netloc = n) (h3 : r.path = p) (h4 : r.params = pr)
    (h5 : r.query = qq) (h6 : r.fragment = f) : r = ⟨s, n, p, pr, qq, f⟩ := by
  cases r
  subst h1 h2 h3 h4 h5 h6
  rfl

theorem splitNetloc_slash (m : Str) :
    splitNetloc ('/' :: '/' :: m) =
      (m.takeWhile (fun c => !(isNetlocEnd c)), m.dropWhile (fun c => !(isNetlocEnd c))) := rfl

theorem urlunsplit_clean_shape (scheme netloc path2 query fragment : Str)
    (hn : netloc ≠ []) (hsch : scheme ≠ [])
    (hp : path2 = [] ∨ path2.take 1 = ['/']) (hf : fragment = []) :
    urlunsplit scheme netloc path2 query fragment =
      scheme ++ ':' :: '/' :: '/' :: (netloc ++ (path2 ++
        (if query ≠ [] then '?' :: query else []))) := by
  unfold urlunsplit
  dsimp only
  rw [if_pos (Or.inl hn)]
  have hni : ¬(path2 ≠ [] ∧ path2.take 1 ≠ ['/']) := by
    rcases hp with h | h
    · intro hc; exact hc.1 h
    · intro hc; exact hc.2 h
  rw [if_neg hni, if_pos hsch, hf]
  by_cases hq : query ≠ []
  · rw [if_pos hq, if_neg (fun hc => hc rfl)]
    simp [List.append_assoc]
    rw [if_neg hq]
  · rw [if_neg hq, if_neg (fun hc => hc rfl)]
    simp [List.append_assoc]
    exact not_ne_iff.mp hq

theorem urlsplit_of_clean (q : UrlParts) (hq : CleanParts q) (d : Str) :
    urlsplit (urlunparse q) d =
      ⟨q.scheme, q.netloc,
        (if q.params ≠ [] then q.path ++ ';' :: q.params else q.path), q.query, []⟩ := by
  obtain ⟨hgs, hn, hnc, hps, hpc, hpn, hsemi, hprc, hqc, hf⟩ := hq
  have hp2shape : (if q.params ≠ [] then q.path ++ ';' :: q.params else q.path) = [] ∨
      (if q.params ≠ [] then q.path ++ ';' :: q.params else q.path).take 1 = ['/'] := by
    by_cases hpr : q.params ≠ []
    · rw [if_pos hpr]
      obtain ⟨hup, hpne⟩ := hpn hpr
      rcases hps with h | h
      · exact absurd h hpne
      · right
        rw [take_one_append _ _ hpne]
        exact h
    · rw [if_neg hpr]
      exact hps
  have hp2c : ∀ x ∈ (if q.params ≠ [] then q.path ++ ';' :: q.params else q.path),
      x ≠ '?' ∧ x ≠ '#' ∧ isUnsafeUrlChar x = false := by
    intro x hx
    by_cases hpr : q.params ≠ []
    · rw [if_pos hpr] at hx
      rcases List.mem_append.mp hx with hh | hh
      · exact hpc x hh
      · rcases List.mem_cons.mp hh with hh2 | hh2
        · subst hh2; exact ⟨by decide, by decide, by decide⟩
        · obtain ⟨ha1, ha2, ha3, ha4⟩ := hprc x hh2
          exact ⟨ha2, ha3, ha4⟩
    · rw [if_neg hpr] at hx
      exact hpc x hx
  obtain ⟨c0, cs, hsc⟩ : ∃ c0 cs, q.scheme = c0 :: cs := by
    cases hschm : q.scheme with
    | nil => rw [hschm] at hgs; exact absurd hgs (by simp [goodScheme])
    | cons c0 cs => exact ⟨c0, cs, rfl⟩
  have hschne : q.scheme ≠ [] := by rw [hsc]; exact List.cons_ne_nil c0 cs
  have hgs' := hgs
  rw [hsc] at hgs'
  unfold goodScheme at hgs'
  obtain ⟨h12, h3⟩ := Bool.and_eq_true _ _ |>.mp hgs'
  obtain ⟨hAl, hAll⟩ := Bool.and_eq_true _ _ |>.mp h12
  have hVdef : urlunparse q = q.scheme ++ ':' :: '/' :: '/' ::
      (q.netloc ++ ((if q.params ≠ [] then q.path ++ ';' :: q.params else q.path) ++
        (if q.query ≠ [] then '?' :: q.query else []))) := by
    unfold urlunparse
    exact urlunsplit_clean_shape q.scheme q.netloc _ q.query q.fragment hn hschne
      hp2shape hf
  have hqt : ∀ x ∈ (if q.query ≠ [] then '?' :: q.query else []),
      x ≠ '#' ∧ isUnsafeUrlChar x = false := by
    intro x hx
    by_cases hqq : q.query ≠ []
    · rw [if_pos hqq] at hx
      rcases List.mem_cons.mp hx with hh | hh
      · subst hh; exact ⟨by decide, by decide⟩
      · exact hqc x hh
    · rw [if_neg hqq] at hx
      exact absurd hx (List.not_mem_nil x)
  have hVu : ∀ x ∈ urlunparse q, isUnsafeUrlChar x = false := by
    intro x hx
    rw [hVdef] at hx
    rcases List.mem_append.mp hx with hh | hh
    · rw [hsc] at hh
      exact isSchemeChar_not_unsafe (List.all_eq_true.mp hAll x hh)
    · rcases List.mem_cons.mp hh with hh2 | hh2
      · subst hh2; decide
      · rcases List.mem_cons.mp hh2 with hh3 | hh3
        · subst hh3; decide
        · rcases List.mem_cons.mp hh3 with hh4 | hh4
          · subst hh4; decide
          · rcases List.mem_append.mp hh4 with hh5 | hh5
            · exact (hnc x hh5).2
            · rcases List.mem_append.mp hh5 with hh6 | hh6
              · exact (hp2c x hh6).2.2
              · exact (hqt x hh6).2
  have hclean : removeUnsafe (lstripC0 (urlunparse q)) = urlunparse q := by
    have hlstrip : lstripC0 (urlunparse q) = urlunparse q := by
      apply lstripC0_eq_self
      intro x hx
      rw [hVdef, hsc] at hx
      simp only [List.cons_append, List.take_succ_cons, List.take_zero] at hx
      rcases List.mem_singleton.mp hx with rfl
      exact isAsciiAlpha_not_c0 hAl
    rw [hlstrip]
    exact removeUnsafe_eq_self _ hVu
  have hnlpred : ∀ x ∈ q.netloc, (!(isNetlocEnd x)) = true := by
    intro x hx
    rw [(hnc x hx).1]
    rfl
  have htail :
      ((if q.params ≠ [] then q.path ++ ';' :: q.params else q.path) ++
        (if q.query ≠ [] then '?' :: q.query else [])).takeWhile
          (fun c => !(isNetlocEnd c)) = [] ∧
      ((if q.params ≠ [] then q.path ++ ';' :: q.params else q.path) ++
        (if q.query ≠ [] then '?' :: q.query else [])).dropWhile
          (fun c => !(isNetlocEnd c)) =
        (if q.params ≠ [] then q.path ++ ';' :: q.params else q.path) ++
        (if q.query ≠ [] then '?' :: q.query else []) := by
    rcases hp2shape with h | h
    · rw [h]
      simp only [List.nil_append]
      by_cases hqq : q.query ≠ []
      · rw [if_pos hqq]
        constructor
        · exact takeWhile_cons_neg _ _ _ (by decide)
        · exact dropWhile_cons_neg _ _ _ (by decide)
      · rw [if_neg hqq]
        exact ⟨rfl, rfl⟩
    · cases hp2 : (if q.params ≠ [] then q.path ++ ';' :: q.params else q.path) with
      | nil => rw [hp2] at h; simp at h
      | cons p0 t =>
        rw [hp2] at h
        simp only [List.take_succ_cons, List.take_zero] at h
        have hp0 : p0 = '/' := by injection h
        subst hp0
        rw [List.cons_append]
        constructor
        · exact takeWhile_cons_neg _ _ _ (by decide)
        · exact dropWhile_cons_neg _ _ _ (by decide)
  have hnohash : '#' ∉ ((if q.params ≠ [] then q.path ++ ';' :: q.params else q.path) ++
      (if q.query ≠ [] then '?' :: q.query else [])) := by
    intro hx
    rcases List.mem_append.mp hx with hh | hh
    · exact (hp2c '#' hh).2.1 rfl
    · exact (hqt '#' hh).1 rfl
  have hnoq : '?' ∉ (if q.params ≠ [] then q.path ++ ';' :: q.params else q.path) := by
    intro hx
    exact (hp2c '?' hx).1 rfl
  unfold urlsplit
  dsimp only
  rw [hclean, hVdef, splitScheme_append _ _ hgs]
  dsimp only
  rw [if_neg hschne, splitNetloc_slash]
  rw [takeWhile_append_all _ _ _ hnlpred, dropWhile_append_all _ _ _ hnlpred]
  rw [htail.1, htail.2, List.append_nil]
  dsimp only
  rw [splitOnceOr_not_found '#' _ hnohash]
  dsimp only
  by_cases hqq : q.query ≠ []
  · rw [if_pos hqq, splitOnceOr_append '?' _ _ hnoq]
  · rw [if_neg hqq, List.append_nil, splitOnceOr_not_found '?' _ hnoq]
    dsimp only
    rw [not_ne_iff.mp hqq]

theorem urlparse_unparse (q : UrlParts) (hq : CleanParts q) (d : Str) :
    urlparse (urlunparse q) d = q := by
  have hsplit := urlsplit_of_clean q hq d
  obtain ⟨hgs, hn, hnc, hps, hpc, hpn, hsemi, hprc, hqc, hf⟩ := hq
  have hsch := urlparse_scheme (urlunparse q) d
  have hnet := urlparse_netloc (urlunparse q) d
  have hqe := urlparse_query (urlunparse q) d
  have hfe := urlparse_fragment (urlunparse q) d
  rw [hsplit] at hsch hnet hqe hfe
  dsimp only at hsch hnet hqe hfe
  have hpp := urlparse_path_params (urlunparse q) d
  rw [hsplit] at hpp
  dsimp only at hpp
  have hmain : (urlparse (urlunparse q) d).path = q.path ∧
      (urlparse (urlunparse q) d).params = q.params := by
    rcases hpp with ⟨hcond, hpe, hpme⟩ | ⟨hcond, hpe, hpme⟩
    · have hprn : q.params = [] := by
        by_contra hpr
        apply hcond
        refine ⟨(hpn hpr).1, ?_⟩
        rw [if_pos hpr]
        exact List.mem_append.mpr (Or.inr (List.mem_cons_self ';' q.params))
      rw [if_neg (not_ne_iff.mpr hprn)] at hpe
      exact ⟨hpe, hpme.trans hprn.symm⟩
    · by_cases hpr : q.params ≠ []
      · rw [if_pos hpr] at hcond hpe hpme
        obtain ⟨hqmem, hqpne⟩ := hpn hpr
        have hq1 : q.path.take 1 = ['/'] := by
          rcases hps with h | h
          · exact absurd h hqpne
          · exact h
        obtain ⟨t, hqp⟩ : ∃ t, q.path = '/' :: t := by
          cases hc : q.path with
          | nil => exact absurd hc hqpne
          | cons z zs =>
            rw [hc] at hq1
            simp only [List.take_succ_cons, List.take_zero] at hq1
            have hz : z = '/' := by injection hq1
            exact ⟨zs, by rw [hz]⟩
        have hslash2 : '/' ∈ q.path ++ ';' :: q.params := by
          rw [hqp]
          exact List.mem_cons_self '/' _
        have hbs : ∀ x ∈ ';' :: q.params, x ≠ '/' := by
          intro x hx
          rcases List.mem_cons.mp hx with hh | hh
          · subst hh; decide
          · exact (hprc x hh).1
        have hals : afterLastSlash (q.path ++ ';' :: q.params) =
            afterLastSlash q.path ++ ';' :: q.params :=
          afterLastSlash_append_no_slash _ _ hbs
        have hnosemi : ';' ∉ afterLastSlash q.path := by
          intro hx
          exact hsemi hx hcond.1
        have hsf : splitFirst ';' (afterLastSlash (q.path ++ ';' :: q.params)) =
            (afterLastSlash q.path, some q.params) := by
          rw [hals]
          exact splitFirst_append ';' _ _ hnosemi
        have hsp := splitParams_of_split _ _ _ hslash2 hsf
        have hup : upToLastSlash (q.path ++ ';' :: q.params) = upToLastSlash q.path :=
          upToLastSlash_append_no_slash _ _ hbs
        rw [hsp] at hpe hpme
        dsimp only at hpe hpme
        rw [hup, upTo_append_afterLast] at hpe
        exact ⟨hpe, hpme⟩
      · rw [if_neg hpr] at hcond hpe hpme
        have hprn : q.params = [] := not_ne_iff.mp hpr
        have hqpne : q.path ≠ [] := by
          intro hc
          rw [hc] at hcond
          exact absurd hcond.2 (List.not_mem_nil ';')
        have hq1 : q.path.take 1 = ['/'] := by
          rcases hps with h | h
          · exact absurd h hqpne
          · exact h
        have hslash : '/' ∈ q.path := by
          cases hc : q.path with
          | nil => exact absurd hc hqpne
          | cons z zs =>
            rw [hc] at hq1
            simp only [List.take_succ_cons, List.take_zero] at hq1
            have hz : z = '/' := by injection hq1
            rw [← hz]
            exact List.mem_cons_self z zs
        have hnosemi : ';' ∉ afterLastSlash q.path := by
          intro hx
          exact hsemi hx hcond.1
        have hsf : splitFirst ';' (afterLastSlash q.path) = (afterLastSlash q.path, none) :=
          splitFirst_not_found ';' _ hnosemi
        have hsp := splitParams_of_none _ _ hslash hsf
        rw [hsp] at hpe hpme
        exact ⟨hpe, hpme.trans hprn.symm⟩
  have := urlParts_eq (urlparse (urlunparse q) d) q.scheme q.netloc q.path q.params
    q.query q.fragment hsch hnet hmain.1 hmain.2 hqe (hfe.trans hf.symm)
  exact this

theorem usesRelative_sub_usesNetloc : ∀ s ∈ usesRelative, s ∈ usesNetloc := by decide

theorem urlunparse_clean_shape (q : UrlParts) (hc : CleanParts q) :
    urlunparse q = q.scheme ++ ':' :: '/' :: '/' ::
      (q.netloc ++ ((if q.params ≠ [] then q.path ++ ';' :: q.params else q.path) ++
        (if q.query ≠ [] then '?' :: q.query else []))) := by
  obtain ⟨hgs, hn, hnc, hps, hpc, hpn, hsemi, hprc, hqc, hf⟩ := hc
  have hschne : q.scheme ≠ [] := by
    cases hs : q.scheme with
    | nil => rw [hs] at hgs; exact absurd hgs (by simp [goodScheme])
    | cons c cs => exact List.cons_ne_nil c cs
  have hp2shape : (if q.params ≠ [] then q.path ++ ';' :: q.params else q.path) = [] ∨
      (if q.params ≠ [] then q.path ++ ';' :: q.params else q.path).take 1 = ['/'] := by
    by_cases hpr : q.params ≠ []
    · rw [if_pos hpr]
      obtain ⟨hup, hpne⟩ := hpn hpr
      rcases hps with h | h
      · exact absurd h hpne
      · right
        rw [take_one_append _ _ hpne]
        exact h
    · rw [if_neg hpr]
      exact hps
  unfold urlunparse
  exact urlunsplit_clean_shape q.scheme q.netloc _ q.query q.fragment hn hschne
    hp2shape hf

theorem urlunparse_clean_ne_nil (q : UrlParts) (hc : CleanParts q) :
    urlunparse q ≠ [] := by
  rw [urlunparse_clean_shape q hc]
  intro h
  have := congrArg List.length h
  simp at this

theorem urljoin_clean (b : Str) (q : UrlParts) (hc : CleanParts q) :
    urljoin b (urlunparse q) = urlunparse q := by
  have hvne := urlunparse_clean_ne_nil q hc
  unfold urljoin
  by_cases hb : b = []
  · rw [if_pos hb]
  · rw [if_neg hb, if_neg hvne]
    dsimp only
    rw [urlparse_unparse q hc]
    by_cases h1 : q.scheme ≠ (urlparse b []).scheme ∨ ¬ (q.scheme ∈ usesRelative)
    · rw [if_pos h1]
    · rw [if_neg h1]
      push_neg at h1
      rw [if_pos ⟨usesRelative_sub_usesNetloc _ h1.2, hc.2.1⟩]

theorem take_one_of_head (l : Str) (y : Char) (h : l.head? = some y) :
    l.take 1 = [y] := by
  cases l with
  | nil => exact absurd h (by simp)
  | cons x xs =>
    simp only [List.head?_cons, Option.some.injEq] at h
    rw [h]
    simp

theorem ignore_disj_mono (path P pat : Str) (star : Bool)
    (hend : endsWithChar '/' P = false)
    (h : (star || fnmatchB P pat || fnmatchB P pat ||
      (P == (if pat ≠ ['/'] then rstripChar '/' pat else pat)) || (P == pat)) = true) :
    (star || fnmatchB path pat || fnmatchB P pat ||
      (P == (if pat ≠ ['/'] then rstripChar '/' pat else pat)) || (path == pat)) = true := by
  simp only [Bool.or_eq_true] at h ⊢
  rcases h with ((((hs | hf) | hf2) | hpn) | hpp)
  · exact Or.inl (Or.inl (Or.inl (Or.inl hs)))
  · exact Or.inl (Or.inl (Or.inr hf))
  · exact Or.inl (Or.inl (Or.inr hf2))
  · exact Or.inl (Or.inr hpn)
  · left; right
    have heq : P = pat := beq_iff_eq.mp hpp
    by_cases hp : pat ≠ ['/']
    · rw [if_pos hp, ← heq, rstripChar_not_endsWith '/' P hend]
      exact beq_self_eq_true P
    · have hpe : pat = ['/'] := not_ne_iff.mp hp
      rw [hpe] at heq
      rw [heq] at hend
      exact absurd hend (by decide)

theorem matchesIgnorePattern_of_self (path P pat0 : Str)
    (hend : endsWithChar '/' P = false)
    (h : matchesIgnorePattern P P pat0 = true) :
    matchesIgnorePattern path P pat0 = true := by
  unfold matchesIgnorePattern at h ⊢
  dsimp only at h ⊢
  by_cases h1 : stripWs pat0 = []
  · rw [if_pos h1] at h
    exact absurd h (by simp)
  · rw [if_neg h1] at h ⊢
    exact ignore_disj_mono path P _ _ hend h

theorem should_ignore_strip_false (ign : List Str) (s n p0 : Str)
    (hc0 : CleanParts ⟨s, n, p0, [], [], []⟩)
    (hcv : CleanParts ⟨s, n, rstripChar '/' p0, [], [], []⟩)
    (hPne : rstripChar '/' p0 ≠ [])
    (hig : should_ignore_url ign (urlunparse ⟨s, n, p0, [], [], []⟩) = false) :
    should_ignore_url ign (urlunparse ⟨s, n, rstripChar '/' p0, [], [], []⟩) = false := by
  have hp0ne : p0 ≠ [] := by
    intro h
    rw [h] at hPne
    exact hPne rfl
  have hp0shape : p0.take 1 = ['/'] := by
    rcases hc0.2.2.2.1 with h | h
    · exact absurd h hp0ne
    · exact h
  have hp0head : p0.head? = some '/' := by
    cases hp : p0 with
    | nil => exact absurd hp hp0ne
    | cons z zs =>
      rw [hp] at hp0shape
      simp only [List.take_succ_cons, List.take_zero] at hp0shape
      have hz : z = '/' := by injection hp0shape
      rw [hz]
      rfl
  have hPtake : (rstripChar '/' p0).take 1 = ['/'] := by
    apply take_one_of_head
    rw [rstripChar_head '/' p0 hPne]
    exact hp0head
  have hp0nroot : p0 ≠ ['/'] := by
    intro h
    rw [h] at hPne
    exact hPne (by decide)
  have hend : endsWithChar '/' (rstripChar '/' p0) = false :=
    rstripChar_no_trailing '/' p0 hPne
  unfold should_ignore_url at hig ⊢
  by_cases hign : ign = []
  · rw [if_pos hign]
  · rw [if_neg hign] at hig ⊢
    dsimp only at hig ⊢
    rw [urlparse_unparse _ hcv []] at *
    rw [urlparse_unparse _ hc0 []] at hig
    dsimp only at hig ⊢
    rw [if_pos hPtake, if_pos hp0shape] at *
    rw [if_pos hp0nroot] at hig
    have hnorm : (if rstripChar '/' p0 ≠ ['/'] then rstripChar '/' (rstripChar '/' p0)
        else rstripChar '/' p0) = rstripChar '/' p0 := by
      by_cases hr : rstripChar '/' p0 ≠ ['/']
      · rw [if_pos hr]
        exact rstripChar_idem '/' p0
      · rw [if_neg hr]
    rw [hnorm]
    rw [List.any_eq_false] at hig ⊢
    intro pat hmem
    cases hm : matchesIgnorePattern (rstripChar '/' p0) (rstripChar '/' p0) pat with
    | false => decide
    | true =>
      have h2 := matchesIgnorePattern_of_self p0 (rstripChar '/' p0) pat hend hm
      exact absurd h2 (hig pat hmem)

theorem unparse_simple_shape (s n p0 : Str) (hc : CleanParts ⟨s, n, p0, [], [], []⟩) :
    urlunparse ⟨s, n, p0, [], [], []⟩ = (s ++ ':' :: '/' :: '/' :: n) ++ p0 := by
  have h := urlunparse_clean_shape _ hc
  dsimp only at h
  rw [if_neg (fun hh : ([] : Str) ≠ [] => hh rfl),
      if_neg (fun hh : ([] : Str) ≠ [] => hh rfl)] at h
  rw [h]
  simp [List.append_assoc]

theorem cleanParts_rstrip (s n p0 : Str) (hc0 : CleanParts ⟨s, n, p0, [], [], []⟩)
    (hPne : rstripChar '/' p0 ≠ [])
    (hsemi2 : ';' ∉ afterLastSlash (rstripChar '/' p0)) :
    CleanParts ⟨s, n, rstripChar '/' p0, [], [], []⟩ := by
  obtain ⟨hgs, hn, hnc, hps, hpc, hpn, hsemi, hprc, hqc, hf⟩ := hc0
  dsimp only at *
  refine ⟨hgs, hn, hnc, ?_, ?_, ?_, ?_, ?_, ?_, rfl⟩
  · right
    apply take_one_of_head
    rw [rstripChar_head '/' p0 hPne]
    have hp0ne : p0 ≠ [] := fun hh => hPne (by rw [hh]; rfl)
    rcases hps with hh | hh
    · exact absurd hh hp0ne
    · cases hp : p0 with
      | nil => exact absurd hp hp0ne
      | cons z zs =>
        rw [hp] at hh
        simp only [List.take_succ_cons, List.take_zero] at hh
        have hz : z = '/' := by injection hh
        rw [hz]
        rfl
  · intro c hcm
    exact hpc c (rstripChar_mem '/' p0 c hcm)
  · intro hne
    exact absurd rfl hne
  · intro hsm
    exact absurd hsm hsemi2
  · intro c hcm
    exact absurd hcm (List.not_mem_nil c)
  · intro c hcm
    exact absurd hcm (List.not_mem_nil c)

theorem rstrip_unparse (s n p0 : Str) (hc0 : CleanParts ⟨s, n, p0, [], [], []⟩)
    (hcv : CleanParts ⟨s, n, rstripChar '/' p0, [], [], []⟩)
    (hPne : rstripChar '/' p0 ≠ []) :
    rstripChar '/' (urlunparse ⟨s, n, p0, [], [], []⟩) =
      urlunparse ⟨s, n, rstripChar '/' p0, [], [], []⟩ := by
  rw [unparse_simple_shape s n p0 hc0, unparse_simple_shape s n _ hcv]
  exact rstripChar_append '/' _ p0 hPne

theorem unparse_simple_no_trailing (s n p0 : Str)
    (hcv : CleanParts ⟨s, n, rstripChar '/' p0, [], [], []⟩)
    (hPne : rstripChar '/' p0 ≠ []) :
    endsWithChar '/' (urlunparse ⟨s, n, rstripChar '/' p0, [], [], []⟩) = false := by
  rw [unparse_simple_shape s n _ hcv]
  rw [endsWithChar_append '/' _ _ hPne]
  exact rstripChar_no_trailing '/' p0 hPne

/-- C6 (amended): on a crawler whose start URL has a nonempty netloc,
`_normalize_url` is idempotent on every URL it returns whose joined form
has a recognised scheme, provided the trailing-slash strip is safe
(`stripSafe`): the strip either does not fire, or it fires on a URL with
no query and no parameters whose stripped path is nonempty and has no `;`
in its final segment.  Re-normalizing such a returned URL yields it
unchanged.  (Without `stripSafe` the claim fails: `C6_counterexample`.) -/
theorem C6_amended (cfg : CrawlerConfig) (u b v : Str)
    (hnet : (parsedStart cfg).netloc ≠ [])
    (hps : (urlparse (urljoin b u) []).scheme ≠ [])
    (hsafe : stripSafe cfg u b = true)
    (h : normalize_url cfg u b = some v) :
    normalize_url cfg v b = some v := by
  unfold normalize_url at h
  dsimp only at h
  unfold stripSafe at hsafe
  dsimp only at hsafe
  split at h
  · exact absurd h (by simp)
  · rename_i hdom
    have hdome : (urlparse (urljoin b u) []).netloc = (parsedStart cfg).netloc :=
      not_ne_iff.mp hdom
    have hn' : (urlparse (urljoin b u) []).netloc ≠ [] := by
      rw [hdome]; exact hnet
    have hc0 := urlparse_clean (urljoin b u) hps hn'
    split at h
    · exact absurd h (by simp)
    · rename_i hig
      split at h
      · rename_i hstrip
        have hv := Option.some.inj h
        subst hv
        obtain ⟨hstrip1, hstrip2⟩ := hstrip
        have hsafe2 : (urlparse (urljoin b u) []).query = [] ∧
            (urlparse (urljoin b u) []).params = [] ∧
            rstripChar '/' (urlparse (urljoin b u) []).path ≠ [] ∧
            ';' ∉ afterLastSlash (rstripChar '/' (urlparse (urljoin b u) []).path) := by
          rcases Bool.or_eq_true _ _ |>.mp hsafe with hl | hr
          · exfalso
            rw [Bool.not_eq_true'] at hl
            rcases Bool.and_eq_false_iff.mp hl with h1 | h1
            · rw [hstrip1] at h1
              exact absurd h1 (by decide)
            · rw [bne_eq_false_iff_eq] at h1
              exact hstrip2 h1
          · simp only [Bool.and_eq_true, beq_iff_eq, bne_iff_ne, decide_eq_true_eq] at hr
            obtain ⟨⟨⟨hq, hp⟩, hrne⟩, hsm⟩ := hr
            exact ⟨hq, hp, hrne, hsm⟩
        obtain ⟨hq, hpr, hPne, hsemi2⟩ := hsafe2
        rw [hq, hpr] at hc0 hig ⊢
        have hcv := cleanParts_rstrip _ _ _ hc0 hPne hsemi2
        have higf : should_ignore_url cfg.ignore_paths
            (urlunparse ⟨(urlparse (urljoin b u) []).scheme,
              (urlparse (urljoin b u) []).netloc,
              (urlparse (urljoin b u) []).path, [], [], []⟩) = false := by
          cases hsi : should_ignore_url cfg.ignore_paths
              (urlunparse ⟨(urlparse (urljoin b u) []).scheme,
                (urlparse (urljoin b u) []).netloc,
                (urlparse (urljoin b u) []).path, [], [], []⟩) with
          | false => rfl
          | true => exact absurd hsi hig
        have higv := should_ignore_strip_false cfg.ignore_paths _ _ _ hc0 hcv hPne higf
        have hnt := unparse_simple_no_trailing _ _ _ hcv hPne
        rw [rstrip_unparse _ _ _ hc0 hcv hPne]
        unfold normalize_url
        dsimp only
        rw [urljoin_clean b _ hcv, urlparse_unparse _ hcv []]
        dsimp only
        rw [if_neg hdom]
        rw [if_neg (by simp [higv])]
        rw [if_neg (fun hc => absurd (hnt.symm.trans hc.1) (by decide))]
      · rename_i hnostrip
        have hv := Option.some.inj h
        subst hv
        unfold normalize_url
        dsimp only
        rw [urljoin_clean b _ hc0, urlparse_unparse _ hc0 []]
        dsimp only
        rw [if_neg hdom]
        rw [if_neg hig]
        rw [if_neg hnostrip]

/-- Witness for C6 (amended) at a concrete crawler, URL and base: all four
hypotheses hold and re-normalizing the output returns it unchanged. -/
theorem C6_amended_witness :
    (parsedStart cfg1).netloc ≠ [] ∧
    (urlparse (urljoin (str "https://x.test/") (str "https://x.test/a/")) []).scheme ≠ [] ∧
    stripSafe cfg1 (str "https://x.test/a/") (str "https://x.test/") = true ∧
    normalize_url cfg1 (str "https://x.test/a/") (str "https://x.test/") =
      some (str "https://x.test/a") ∧
    normalize_url cfg1 (str "https://x.test/a") (str "https://x.test/") =
      some (str "https://x.test/a") :=
  ⟨by decide, by decide, by decide, by decide,
   C6_amended cfg1 (str "https://x.test/a/") (str "https://x.test/")
     (str "https://x.test/a") (by decide) (by decide) (by decide) (by decide)⟩

theorem get_node_id_queue (s : CrawlState) (url : Str) :
    (get_node_id s url).2.queue = s.queue := by
  unfold get_node_id
  cases h : lookupUrl s.url_to_id url <;> simp [h]

theorem normalize_some_netloc (cfg : CrawlerConfig) (u b v : Str)
    (h : normalize_url cfg u b = some v) :
    (urlparse (urljoin b u) []).netloc = (parsedStart cfg).netloc := by
  unfold normalize_url at h
  dsimp only at h
  split at h
  · exact absurd h (by simp)
  · rename_i hdom
    exact not_ne_iff.mp hdom

theorem extract_links_prov (cfg : CrawlerConfig) (visited : List Str) (base_url : Str) :
    ∀ (hrefs acc : List Str),
      (∀ n ∈ acc, ∃ u, normalize_url cfg u base_url = some n) →
      ∀ n ∈ hrefs.foldl
        (fun links href =>
          match normalize_url cfg href base_url with
          | some m => if m ∉ visited ∧ m ∉ links then links ++ [m] else links
          | none => links) acc,
        ∃ u, normalize_url cfg u base_url = some n := by
  intro hrefs
  induction hrefs with
  | nil =>
    intro acc hacc n hn
    exact hacc n hn
  | cons href rest ih =>
    intro acc hacc n hn
    rw [List.foldl_cons] at hn
    refine ih _ ?_ n hn
    intro m hm
    cases hno : normalize_url cfg href base_url with
    | none =>
      rw [hno] at hm
      exact hacc m hm
    | some v =>
      rw [hno] at hm
      dsimp only at hm
      split at hm
      · rcases List.mem_append.mp hm with h1 | h1
        · exact hacc m h1
        · have hmv : m = v := by simpa using h1
          exact ⟨href, by rw [hno, hmv]⟩
      · exact hacc m hm

theorem extract_links_good (cfg : CrawlerConfig) (visited hrefs : List Str)
    (base_url : Str) :
    ∀ n ∈ extract_links cfg visited hrefs base_url,
      ∃ u, normalize_url cfg u base_url = some n := by
  intro n hn
  unfold extract_links at hn
  exact extract_links_prov cfg visited base_url hrefs [] (by simp) n hn

theorem link_step_queue (cfg : CrawlerConfig) (nid d : Nat) (s : CrawlState) (l : Str) :
    (link_step cfg nid d s l).queue = s.queue ∨
    (link_step cfg nid d s l).queue = s.queue ++ [(l, d + 1)] := by
  unfold link_step
  split
  · left; rfl
  · dsimp only
    split <;> split
    · right; simp [get_node_id_queue]
    · left; simp [get_node_id_queue]
    · right; simp [get_node_id_queue]
    · left; simp [get_node_id_queue]

theorem link_step_prov (cfg : CrawlerConfig) (nid d : Nat) (s : CrawlState) (l : Str)
    (h : UrlProv cfg s) (hl : GoodUrl cfg l) : UrlProv cfg (link_step cfg nid d s l) := by
  obtain ⟨hq, hn⟩ := h
  constructor
  · rcases link_step_queue cfg nid d s l with hque | hque
    · rw [hque]; exact hq
    · rw [hque]
      intro q hqm
      rcases List.mem_append.mp hqm with h1 | h1
      · exact hq q h1
      · have hql : q = (l, d + 1) := by simpa using h1
        rw [hql]
        exact hl
  · rcases link_step_graph cfg nid d s l with ⟨hnod, _⟩ | ⟨_, tid, _, hcase⟩
    · rw [hnod]; exact hn
    · rcases hcase with ⟨hnod, _⟩ | hnod
      · rw [hnod]; exact hn
      · rw [hnod]
        intro p hp
        rcases List.mem_append.mp hp with h1 | h1
        · exact hn p h1
        · have hpl : p = (tid, ⟨l, l, none, none⟩) := by simpa using h1
          rw [hpl]
          exact hl

theorem process_links_prov (cfg : CrawlerConfig) (nid d : Nat) :
    ∀ (ls : List Str) (s : CrawlState), UrlProv cfg s → (∀ l ∈ ls, GoodUrl cfg l) →
      UrlProv cfg (process_links cfg nid d s ls) := by
  intro ls
  induction ls with
  | nil => exact fun s h _ => h
  | cons l rest ih =>
    intro s h hls
    unfold process_links
    exact ih _ (link_step_prov cfg nid d s l h (hls l (List.mem_cons_self l rest)))
      (fun x hx => hls x (List.mem_cons_of_mem l hx))

theorem process_item_prov (cfg : CrawlerConfig) (site : Site)
    (s : CrawlState) (url : Str) (depth : Nat) (h : UrlProv cfg s)
    (hurl : GoodUrl cfg url) : UrlProv cfg (process_item cfg site s url depth) := by
  obtain ⟨hq, hn⟩ := h
  unfold process_item
  split
  · exact ⟨hq, hn⟩
  · split
    · exact ⟨hq, hn⟩
    · split
      · exact ⟨hq, hn⟩
      · cases hsite : site url with
        | none => exact ⟨hq, hn⟩
        | some page =>
          dsimp only
          apply process_links_prov
          · constructor
            · intro q hqm
              simp only [get_node_id_queue] at hqm
              exact hq q hqm
            · intro p hp
              simp only [get_node_id_nodes] at hp
              rcases setNode_mem _ _ _ _ hp with hmem | hmem
              · exact hn p hmem
              · rw [hmem]
                exact hurl
          · intro l hlm
            rcases extract_links_good cfg _ page.hrefs url l hlm with ⟨u, hu⟩
            exact Or.inr ⟨u, url, hu⟩

theorem crawl_loop_invariant2 (cfg : CrawlerConfig) (site : Site)
    (P : CrawlState → Prop)
    (hstep : ∀ s url depth rest, s.queue = (url, depth) :: rest → P s →
      P (process_item cfg site { s with queue := rest } url depth)) :
    ∀ (fuel : Nat) (s : CrawlState), P s → P (crawl_loop cfg site fuel s) := by
  intro fuel
  induction fuel with
  | zero => exact fun s h => h
  | succ n ih =>
    intro s h
    show P (match crawl_step cfg site s with
            | none => s
            | some s2 => crawl_loop cfg site n s2)
    cases hc : crawl_step cfg site s with
    | none => exact h
    | some s2 =>
      obtain ⟨url, depth, rest, hqe, hs2⟩ := crawl_step_characterization cfg site s s2 hc
      subst hs2
      exact ih _ (hstep s url depth rest hqe h)

theorem crawl_urlProv (cfg : CrawlerConfig) (site : Site) (fuel : Nat) :
    UrlProv cfg (crawl cfg site fuel) := by
  unfold crawl
  refine crawl_loop_invariant2 cfg site (UrlProv cfg) ?_ fuel (initState cfg) ?_
  · intro s url depth rest hqe h
    obtain ⟨hq, hn⟩ := h
    apply process_item_prov
    · constructor
      · intro q hqm
        apply hq
        rw [hqe]
        exact List.mem_cons_of_mem _ hqm
      · exact hn
    · exact hq (url, depth) (by rw [hqe]; exact List.mem_cons_self _ _)
  · constructor
    · intro q hqm
      have hq0 : q = (cfg.start_url, 0) := by simpa [initState] using hqm
      rw [hq0]
      exact Or.inl rfl
    · intro p hp
      simp [initState] at hp

/-- C5: with ignore pattern `/private*` configured, no node of any crawl's
final graph has URL path `/private/page` and every edge target has a node;
more generally, for every crawl every node URL passes the ignore filter and
is either the raw start URL or a URL some `_normalize_url` call accepted —
so the graph never contains a node for a URL rejected by normalization, and
every such accepted URL passed the netloc (same-domain) check of line
194. -/
theorem C5_ignore_exclusion (cfg : CrawlerConfig) (site : Site) (fuel : Nat)
    (hpat : str "/private*" ∈ cfg.ignore_paths) :
    (∀ p ∈ (crawl cfg site fuel).nodes,
        should_ignore_url cfg.ignore_paths p.2.url = false ∧
        (urlparse p.2.url []).path ≠ str "/private/page") ∧
    (∀ e ∈ (crawl cfg site fuel).edges,
        ∃ p ∈ (crawl cfg site fuel).nodes, p.1 = e.2) ∧
    (∀ (cfg2 : CrawlerConfig) (site2 : Site) (fuel2 : Nat),
      ∀ p ∈ (crawl cfg2 site2 fuel2).nodes,
        should_ignore_url cfg2.ignore_paths p.2.url = false ∧
        (p.2.url = cfg2.start_url ∨
          ∃ u b, normalize_url cfg2 u b = some p.2.url ∧
            (urlparse (urljoin b u) []).netloc = (parsedStart cfg2).netloc)) := by
  obtain ⟨hn, he⟩ := crawl_nodesInv cfg site fuel
  refine ⟨?_, he, ?_⟩
  · intro p hp
    refine ⟨hn p hp, ?_⟩
    intro hpath
    have htrue : should_ignore_url cfg.ignore_paths p.2.url = true := by
      apply should_ignore_of_pattern _ _ _ hpat
      rw [hpath]
      decide
    rw [hn p hp] at htrue
    exact absurd htrue (by simp)
  · intro cfg2 site2 fuel2 p hp
    refine ⟨(crawl_nodesInv cfg2 site2 fuel2).1 p hp, ?_⟩
    rcases (crawl_urlProv cfg2 site2 fuel2).2 p hp with hstart | ⟨u, b, hnorm⟩
    · exact Or.inl hstart
    · exact Or.inr ⟨u, b, hnorm, normalize_some_netloc cfg2 u b p.2.url hnorm⟩

/-- Witness for C5 at a concrete crawl whose root page links to
`/private/page`: the root node passes the filter and is not the private
page, and the `/about` node's URL was accepted by a normalization call that
passed the domain check. -/
theorem C5_ignore_exclusion_witness :
    (should_ignore_url cfg5.ignore_paths (str "https://x.test/") = false ∧
     (urlparse (str "https://x.test/") []).path ≠ str "/private/page") ∧
    (should_ignore_url cfg5.ignore_paths (str "https://x.test/about") = false ∧
     (str "https://x.test/about" = cfg5.start_url ∨
       ∃ u b, normalize_url cfg5 u b = some (str "https://x.test/about") ∧
         (urlparse (urljoin b u) []).netloc = (parsedStart cfg5).netloc)) := by
  have hpat : str "/private*" ∈ cfg5.ignore_paths := by decide
  have hnodes : (crawl cfg5 siteP 10).nodes =
      [(0, ⟨str "https://x.test/", str "https://x.test/", some 0, some none⟩),
       (1, ⟨str "https://x.test/about", str "https://x.test/about", some 1, some none⟩)] := by
    decide
  have hmem0 : (0, (⟨str "https://x.test/", str "https://x.test/", some 0, some none⟩ : NodeData)) ∈
      (crawl cfg5 siteP 10).nodes := by
    rw [hnodes]
    exact List.mem_cons_self _ _
  have hmem1 : (1, (⟨str "https://x.test/about", str "https://x.test/about", some 1, some none⟩ : NodeData)) ∈
      (crawl cfg5 siteP 10).nodes := by
    rw [hnodes]
    exact List.mem_cons_of_mem _ (List.mem_cons_self _ _)
  have h1 := (C5_ignore_exclusion cfg5 siteP 10 hpat).1 _ hmem0
  have h2 := (C5_ignore_exclusion cfg5 siteP 10 hpat).2.2 cfg5 siteP 10 _ hmem1
  exact ⟨h1, h2⟩
